import Mathlib

/-!
# Ranged downloader: byte-range partition, section writer and chunk fetch

A shallow embedding of `main.go`:

* the partition loop of `main` (`chunkSize`, `start`, `end` for every chunk index),
* `SectionWriter.Write`,
* `downloadChunk` (request construction, status check, copy of the body into the section),
* the branch of `main` on the `Accept-Ranges` header.

Go's `int64` values are integers kept in range by `wrap64` after every arithmetic
operation; a run-time panic is the `none` of an `Option`.  The operating system's
file, the HTTP transport and `io.Copy` of the Go standard library are modelled
by `File`, `Net` and `ioCopy`.
-/

namespace Downloader

/-! ## Machine integers -/

/-- Two's-complement wrap-around of an integer into the `int64` range. -/
def wrap64 (x : Int) : Int :=
  (x + 9223372036854775808) % 18446744073709551616 - 9223372036854775808

/-- Membership in the `int64` range. -/
def isInt64 (x : Int) : Prop := -9223372036854775808 ≤ x ∧ x ≤ 9223372036854775807

instance (x : Int) : Decidable (isInt64 x) := by unfold isInt64; infer_instance

/-- Go's `a / b` on `int64`: truncated quotient, wrapped (`MinInt64 / -1`);
division by zero is a run-time panic. -/
def div64 (a b : Int) : Option Int :=
  if b = 0 then none else some (wrap64 (Int.tdiv a b))

/-! ## The partition loop of `main` -/

/-- Body of the loop `for i := 0; i < numChunks; i++` in `main`: the pair
`(start, end)` handed to `downloadChunk` for chunk index `i`.

    start := int64(i) * chunkSize
    end := start + chunkSize - 1
    if i == numChunks-1 { end = expectedSize - 1 } -/
def chunkInterval (expectedSize chunkSize numChunks : Int) (i : Int) : Int × Int :=
  let start := wrap64 (i * chunkSize)
  let end_ := wrap64 (wrap64 (start + chunkSize) - 1)
  let end_ := if i = wrap64 (numChunks - 1) then wrap64 (expectedSize - 1) else end_
  (start, end_)

/-- The intervals dispatched by the ranged branch of `main`, in loop order, with
`expectedSize` and `numChunks` as parameters (`main` fixes them to `631207581`
and `8`).  `chunkSize := expectedSize / int64(numChunks)`. -/
def mainChunks (expectedSize numChunks : Int) : Option (List (Int × Int)) :=
  (div64 expectedSize numChunks).map fun chunkSize =>
    (List.range numChunks.toNat).map fun (i : Nat) =>
      chunkInterval expectedSize chunkSize numChunks (i : Int)

/-! ## Errors, writers and the file -/

abbrev Byte := UInt8

/-- Error values that occur in the program and in the parts of its environment
that are modelled here. -/
inductive Error where
  /-- The error created in `SectionWriter.Write` when the section is full
  (`errors.New` with the text "section size exceeded"). -/
  | sectionExhausted
  /-- The value `io.ErrShortWrite`. -/
  | shortWrite
  /-- The error of `io.Copy` for a writer that reports an impossible count. -/
  | invalidWrite
  /-- The value `io.EOF`. -/
  | EOF
  /-- The error of `(*os.File).WriteAt` for a negative offset. -/
  | negativeOffset
  /-- Any other error of the environment (network, device), with its text. -/
  | other (msg : String)
  /-- Wrapping by `downloadChunk`: the request could not be created. -/
  | createRequest (e : Error)
  /-- Wrapping by `downloadChunk`: the request could not be performed. -/
  | doRequest (e : Error)
  /-- The error of `downloadChunk` for a status other than 200 and 206. -/
  | unexpectedStatus (status : String)
  /-- Wrapping by `downloadChunk`: the copy into the section failed. -/
  | saveChunk (e : Error)
  deriving DecidableEq

/-- Result `(n int, err error)` of a write, together with the new state of the
target. -/
structure WriteRes (τ : Type) where
  target : τ
  n : Int
  err : Option Error

/-- An `io.Writer` over a target with states in `τ`; `WriteAt` is present when
the dynamic type also implements `io.WriterAt`. -/
structure Writer (τ : Type) where
  Write : τ → List Byte → WriteRes τ
  WriteAt : Option (τ → List Byte → Int → WriteRes τ)

/-- The write that `SectionWriter.Write` performs on its target:

    if w, ok := s.W.(io.WriterAt); ok {
        n, err = w.WriteAt(p, s.Base+s.Off)
    } else {
        n, err = s.W.Write(p)
    } -/
def Writer.call {τ : Type} (W : Writer τ) (t : τ) (p : List Byte) (off : Int) : WriteRes τ :=
  match W.WriteAt with
  | some writeAt => writeAt t p off
  | none => W.Write t p

/-- One recorded call on a target: the offset (for `WriteAt`) and the bytes. -/
structure Call where
  off : Option Int
  bytes : List Byte
  deriving DecidableEq

/-- The same writer, keeping a record of every call made on it, oldest first. -/
def Writer.logged {τ : Type} (W : Writer τ) : Writer (τ × List Call) where
  Write := fun t p =>
    let r := W.Write t.1 p
    ⟨(r.target, t.2 ++ [⟨none, p⟩]), r.n, r.err⟩
  WriteAt := W.WriteAt.map fun writeAt => fun t p off =>
    let r := writeAt t.1 p off
    ⟨(r.target, t.2 ++ [⟨some off, p⟩]), r.n, r.err⟩

/-- Contents of a file after `p` has been stored at offset `off`: a gap
between the old end of the file and `off` reads as zero bytes; storing no bytes
leaves the file as it is. -/
def writeBytes (data : List Byte) (off : Nat) (p : List Byte) : List Byte :=
  if p.isEmpty then data
  else data.take off ++ List.replicate (off - data.length) 0 ++ p ++ data.drop (off + p.length)

/-- The state of an `*os.File` opened by `os.Create`: its contents and the
position of its sequential cursor.  Device errors are not modelled. -/
structure File where
  data : List Byte
  pos : Nat
  deriving DecidableEq

/-- The method `(*os.File).WriteAt`: a negative offset is an error, otherwise all
of `p` is stored at `off`; the sequential cursor does not move. -/
def File.WriteAt (f : File) (p : List Byte) (off : Int) : WriteRes File :=
  if off < 0 then ⟨f, 0, some .negativeOffset⟩
  else ⟨{ f with data := writeBytes f.data off.toNat p }, p.length, none⟩

/-- The method `(*os.File).Write`: all of `p` is stored at the cursor, which
advances. -/
def File.Write (f : File) (p : List Byte) : WriteRes File :=
  ⟨{ data := writeBytes f.data f.pos p, pos := f.pos + p.length }, p.length, none⟩

/-- An `*os.File` as `io.Writer` and `io.WriterAt`. -/
def osFile : Writer File := ⟨File.Write, some File.WriteAt⟩

/-- The byte of a file at an offset; offsets outside the file read as zero. -/
def File.byteAt (f : File) (k : Int) : Byte :=
  if k < 0 then 0 else f.data.getD k.toNat 0

/-! ## `SectionWriter` -/

/-- The fields `Base`, `Size`, `Off` of `SectionWriter`; the field `W` is the
`Writer` and target state passed to `Write`. -/
structure SectionWriter where
  Base : Int
  Size : Int
  Off : Int
  deriving DecidableEq

/-- Result of `SectionWriter.Write`: the receiver and the target afterwards, and
the returned `(n, err)`. -/
structure SectionWrite (τ : Type) where
  s : SectionWriter
  target : τ
  n : Int
  err : Option Error

/-- The method `SectionWriter.Write`.

    if s.Off >= s.Size { return 0, errors.New(...) }
    if max := s.Size - s.Off; int64(len(p)) > max { p = p[:max] }
    n, err = (WriteAt at s.Base+s.Off, or Write)
    s.Off += int64(n)
    return

The slice expression `p[:max]` panics for a negative `max` (result `none`). -/
def SectionWriter.Write {τ : Type} (W : Writer τ) (s : SectionWriter) (t : τ)
    (p : List Byte) : Option (SectionWrite τ) :=
  if s.Off ≥ s.Size then some ⟨s, t, 0, some .sectionExhausted⟩
  else
    let max := wrap64 (s.Size - s.Off)
    let sliced : Option (List Byte) :=
      if (p.length : Int) > max then
        (if max < 0 then none else some (p.take max.toNat))
      else some p
    match sliced with
    | none => none
    | some p =>
      let r := W.call t p (wrap64 (s.Base + s.Off))
      some ⟨{ s with Off := wrap64 (s.Off + r.n) }, r.target, r.n, r.err⟩

/-- A finite sequence of `Write` calls on one section, whatever each returns. -/
def writeAll {τ : Type} (W : Writer τ) (s : SectionWriter) (t : τ) :
    List (List Byte) → Option (SectionWriter × τ)
  | [] => some (s, t)
  | p :: ps =>
    match s.Write W t p with
    | none => none
    | some r => writeAll W r.s r.target ps

/-! ## `io.Copy` into a section -/

/-- One return `(n, err)` of `Read` on a response body: the bytes delivered and
the error, if any. -/
structure ReadEvent where
  data : List Byte
  err : Option Error
  deriving DecidableEq

/-- Result of `io.Copy`: the section and target afterwards and `(written, err)`. -/
structure CopyRes (τ : Type) where
  s : SectionWriter
  target : τ
  written : Int
  err : Option Error

/-- The loop of `io.Copy(dst, src)` of the Go standard library for a `dst` with
only a `Write` method (here a `*SectionWriter`), `src` returning the given reads
and then `(0, io.EOF)`:

    nr, er := src.Read(buf)
    if nr > 0 {
        nw, ew := dst.Write(buf[0:nr])
        if nw < 0 || nr < nw { nw = 0; if ew == nil { ew = errInvalidWrite } }
        written += int64(nw)
        if ew != nil { err = ew; break }
        if nr != nw { err = ErrShortWrite; break }
    }
    if er != nil { if er != EOF { err = er }; break } -/
def ioCopy {τ : Type} (W : Writer τ) (s : SectionWriter) (t : τ) (written : Int) :
    List ReadEvent → Option (CopyRes τ)
  | [] => some ⟨s, t, written, none⟩
  | ev :: rest =>
    let nr : Int := ev.data.length
    let afterRead (s : SectionWriter) (t : τ) (written : Int) : Option (CopyRes τ) :=
      match ev.err with
      | some er => some ⟨s, t, written, if er = .EOF then none else some er⟩
      | none => ioCopy W s t written rest
    if nr > 0 then
      match s.Write W t ev.data with
      | none => none
      | some w =>
        let bad : Bool := decide (w.n < 0 ∨ nr < w.n)
        let nw : Int := if bad then 0 else w.n
        let ew : Option Error :=
          if bad then (match w.err with | none => some .invalidWrite | some e => some e)
          else w.err
        let written := wrap64 (written + nw)
        match ew with
        | some e => some ⟨w.s, w.target, written, some e⟩
        | none =>
          if nr ≠ nw then some ⟨w.s, w.target, written, some .shortWrite⟩
          else afterRead w.s w.target written
    else afterRead s t written

/-- The bytes a sequence of reads delivers: everything up to and including the
first read that returns an error. -/
def delivered : List ReadEvent → List Byte
  | [] => []
  | ev :: rest => match ev.err with
    | some _ => ev.data
    | none => ev.data ++ delivered rest

/-- The error that ends a sequence of reads, when it is not `io.EOF`. -/
def readFailure : List ReadEvent → Option Error
  | [] => none
  | ev :: rest => match ev.err with
    | some er => if er = .EOF then none else some er
    | none => readFailure rest

/-! ## HTTP messages -/

/-- An `http.Header`: keys with their values (keys in canonical form). -/
structure Header where
  entries : List (String × List String)
  deriving DecidableEq

/-- The method `Header.Set`: replaces the values of `key` by the single `value`. -/
def Header.Set (h : Header) (key value : String) : Header :=
  ⟨(key, [value]) :: h.entries.filter fun kv => kv.1 != key⟩

/-- The method `Header.Get`: first value of `key`, or the empty string. -/
def Header.Get (h : Header) (key : String) : String :=
  match h.entries.lookup key with
  | some (v :: _) => v
  | _ => ""

/-- Whether a header has an entry for `key`. -/
def Header.has (h : Header) (key : String) : Bool :=
  (h.entries.lookup key).isSome

structure Request where
  Method : String
  URL : String
  Header : Header
  deriving DecidableEq

structure Response where
  StatusCode : Int
  Status : String
  Header : Header
  Body : List ReadEvent
  deriving DecidableEq

/-- The environment of `downloadChunk`: whether `http.NewRequest` rejects a URL,
and what `client.Do` returns for a request. -/
structure Net where
  NewRequestErr : String → Option Error
  Do : Request → Except Error Response

/-! ## `downloadChunk` -/

/-- The format `fmt.Sprintf("bytes=%d-%d", start, end)`. -/
def rangeValue (start end_ : Int) : String :=
  "bytes=" ++ toString start ++ "-" ++ toString end_

/-- The request `downloadChunk` hands to `client.Do`: a GET with the four fixed
headers and, `if end > 0`, the `Range` header. -/
def chunkRequest (url : String) (start end_ : Int) : Request :=
  let h : Header := ⟨[]⟩
  let h := h.Set "User-Agent" "Mozilla/5.0 (Windows NT 10.0; Win64; x64) AppleWebKit/537.36 (KHTML, like Gecko) Chrome/91.0.4472.124 Safari/537.36"
  let h := h.Set "Accept" "video/mp4,video/*;q=0.9,*/*;q=0.8"
  let h := h.Set "Accept-Language" "ru-RU,ru;q=0.9,en-US;q=0.8,en;q=0.7"
  let h := h.Set "Referer" "https://www.tiktok.com/"
  let h := if end_ > 0 then h.Set "Range" (rangeValue start end_) else h
  ⟨"GET", url, h⟩

/-- What a run of `downloadChunk` leaves: the output file, the local
`outputSection` once it exists, and the returned error. -/
structure ChunkRun where
  output : File
  outputSection : Option SectionWriter
  err : Option Error
  deriving DecidableEq

/-- The function `downloadChunk(url, start, end, output, wg)`; the deferred
`wg.Done()` is not part of the state.  `none` is a panic. -/
def downloadChunk (net : Net) (url : String) (start end_ : Int) (output : File) :
    Option ChunkRun :=
  match net.NewRequestErr url with
  | some e => some ⟨output, none, some (.createRequest e)⟩
  | none =>
    match net.Do (chunkRequest url start end_) with
    | .error e => some ⟨output, none, some (.doRequest e)⟩
    | .ok resp =>
      if resp.StatusCode ≠ 200 ∧ resp.StatusCode ≠ 206 then
        some ⟨output, none, some (.unexpectedStatus resp.Status)⟩
      else
        let outputSection : SectionWriter :=
          { Base := start, Size := wrap64 (wrap64 (end_ - start) + 1), Off := 0 }
        match ioCopy osFile outputSection output 0 resp.Body with
        | none => none
        | some r =>
          match r.err with
          | some e => some ⟨r.target, some r.s, some (.saveChunk e)⟩
          | none => some ⟨r.target, some r.s, none⟩

/-! ## The branch of `main` -/

/-- The fetch `main` performs after the HEAD request. -/
inductive Fetch where
  /-- One `go downloadChunk(videoURL, start, end, out, &wg)` per interval. -/
  | ranged (chunks : List (Int × Int))
  /-- One GET without `Range`, copied into the file from its start. -/
  | whole
  deriving DecidableEq

/-- The condition `resp.Header.Get("Accept-Ranges") == "bytes"` of `main`. -/
def acceptsRanges (resp : Response) : Bool :=
  resp.Header.Get "Accept-Ranges" == "bytes"

/-- The branch of `main` on the HEAD response. -/
def mainFetch (expectedSize numChunks : Int) (resp : Response) : Option Fetch :=
  if acceptsRanges resp then (mainChunks expectedSize numChunks).map Fetch.ranged
  else some Fetch.whole

/-! ## Several sections over one file -/

/-- One `Write` of `p` on section `i` of a family of sections sharing a file. -/
def stepView (views : List SectionWriter) (f : File) (i : Nat) (p : List Byte) :
    Option (List SectionWriter × File) :=
  match views[i]? with
  | none => some (views, f)
  | some s =>
    match s.Write osFile f p with
    | none => none
    | some r => some (views.set i r.s, r.target)

/-- A schedule: `Write` calls of the sections in the order in which they happen. -/
def runSchedule (views : List SectionWriter) (f : File) :
    List (Nat × List Byte) → Option (List SectionWriter × File)
  | [] => some (views, f)
  | (i, p) :: rest =>
    match stepView views f i p with
    | none => none
    | some (views, f) => runSchedule views f rest

/-- Sections with the given window sizes laid side by side from offset `base`,
each with `Off = 0`. -/
def tiling (base : Int) : List Nat → List SectionWriter
  | [] => []
  | n :: rest => ⟨base, n, 0⟩ :: tiling (base + n) rest

/-! ## Auxiliary definitions -/

/-- The bytes a schedule hands to section `i`, in the order of its own calls. -/
def fedTo (i : Nat) (sched : List (Nat × List Byte)) : List Byte :=
  ((sched.filter fun c => c.1 == i).map Prod.snd).flatten

/-- Offset at which window `i` of side-by-side windows of the given sizes starts. -/
def baseOf (sizes : List Nat) (i : Nat) : Nat := (sizes.take i).sum

/-- Invariant of a run of sections sharing a pre-sized file: section `i` has
written the first `o` bytes of its pattern into its window and the rest of the
schedule holds the remaining bytes of the pattern. -/
def ViewsInv (patterns : List (List Byte)) (vs : List SectionWriter) (d : List Byte)
    (rest : List (Nat × List Byte)) : Prop :=
  d.length = patterns.flatten.length ∧ vs.length = patterns.length ∧
  ∀ i pat, patterns[i]? = some pat →
    ∃ o : Nat, vs[i]? = some ⟨(baseOf (patterns.map List.length) i : Nat), (pat.length : Nat),
        (o : Nat)⟩ ∧
      o ≤ pat.length ∧ pat.drop o = fedTo i rest ∧
      ∀ k, k < o → d[baseOf (patterns.map List.length) i + k]? = pat[k]?

/-- The interval of chunk `i` without wrap-around. -/
def idealInterval (T cs n : Int) (i : Int) : Int × Int :=
  (i * cs, if i = n - 1 then T - 1 else i * cs + cs - 1)

/-! # Theorems -/

/-! ## Arithmetic of the partition -/

theorem wrap64_eq {x : Int} (h1 : -9223372036854775808 ≤ x) (h2 : x ≤ 9223372036854775807) :
    wrap64 x = x := by
  unfold wrap64; omega

theorem div_facts {T n : Int} (hT : 0 ≤ T) (hn : 0 < n) :
    0 ≤ T / n ∧ T / n * n ≤ T ∧ T < T / n * n + n ∧ T / n ≤ T := by
  have h1 : T / n * n ≤ T := Int.ediv_mul_le T (by omega)
  have h2 := Int.emod_add_ediv T n
  have h3 : T % n < n := Int.emod_lt_of_pos T hn
  have h4 : 0 ≤ T / n := Int.ediv_nonneg hT (by omega)
  have h5 : T / n * n = n * (T / n) := by ring
  refine ⟨h4, h1, by omega, ?_⟩
  have : T / n * 1 ≤ T / n * n := Int.mul_le_mul_of_nonneg_left (by omega) h4
  omega

theorem mul_chunk_le {T n i : Int} (hT : 0 ≤ T) (hn : 0 < n) (hi0 : 0 ≤ i) (hi : i ≤ n) :
    0 ≤ i * (T / n) ∧ i * (T / n) ≤ T := by
  obtain ⟨h4, h1, _, _⟩ := div_facts hT hn
  have : i * (T / n) ≤ n * (T / n) := Int.mul_le_mul_of_nonneg_right hi h4
  have h5 : T / n * n = n * (T / n) := by ring
  exact ⟨Int.mul_nonneg hi0 h4, by omega⟩

theorem chunkInterval_eq {T n i : Int} (hT : 0 ≤ T) (hT64 : T ≤ 9223372036854775807)
    (hn : 0 < n) (hn64 : n ≤ 9223372036854775807) (hi0 : 0 ≤ i) (hi : i < n) :
    chunkInterval T (T / n) n i = idealInterval T (T / n) n i := by
  obtain ⟨h4, h1, _, h6⟩ := div_facts hT hn
  obtain ⟨h7, h8⟩ := mul_chunk_le hT hn hi0 (le_of_lt hi)
  obtain ⟨_, h9⟩ := mul_chunk_le hT hn (by omega : (0 : Int) ≤ i + 1) (by omega : i + 1 ≤ n)
  have h10 : (i + 1) * (T / n) = i * (T / n) + T / n := by ring
  unfold chunkInterval idealInterval
  simp only
  rw [wrap64_eq (x := i * (T / n)) (by omega) (by omega),
    wrap64_eq (x := i * (T / n) + T / n) (by omega) (by omega),
    wrap64_eq (x := i * (T / n) + T / n - 1) (by omega) (by omega),
    wrap64_eq (x := n - 1) (by omega) (by omega),
    wrap64_eq (x := T - 1) (by omega) (by omega)]

theorem mainChunks_eq {T n : Int} (hT : 0 ≤ T) (hT64 : T ≤ 9223372036854775807)
    (hn : 0 < n) (hn64 : n ≤ 9223372036854775807) :
    mainChunks T n = some ((List.range n.toNat).map fun (i : Nat) =>
      idealInterval T (T / n) n (i : Int)) := by
  obtain ⟨h4, _, _, h6⟩ := div_facts hT hn
  have hd : div64 T n = some (T / n) := by
    unfold div64
    rw [if_neg (by omega), Int.tdiv_eq_ediv hT (by omega), wrap64_eq (by omega) (by omega)]
  unfold mainChunks
  rw [hd]
  simp only [Option.map_some']
  congr 1
  apply List.map_congr_left
  intro i hi
  rw [List.mem_range] at hi
  exact chunkInterval_eq hT hT64 hn hn64 (by omega) (by omega)

theorem ideal_getElem? {T n : Int} (i : Nat) (a : Int × Int) :
    ((List.range n.toNat).map fun (i : Nat) => idealInterval T (T / n) n (i : Int))[i]? = some a ↔
      (i : Int) < n ∧ 0 < n ∧ a = idealInterval T (T / n) n (i : Int) := by
  rw [List.getElem?_map]
  by_cases h : i < n.toNat
  · rw [List.getElem?_range h]
    simp only [Option.map_some', Option.some.injEq]
    constructor
    · intro e; exact ⟨by omega, by omega, e.symm⟩
    · intro e; exact e.2.2.symm
  · rw [List.getElem?_eq_none (by simpa using h)]
    constructor
    · intro e; cases e
    · rintro ⟨h1, h2, _⟩
      omega

theorem ideal_mem {T n : Int} (a : Int × Int) :
    a ∈ ((List.range n.toNat).map fun (i : Nat) => idealInterval T (T / n) n (i : Int)) ↔
      ∃ i : Nat, (i : Int) < n ∧ a = idealInterval T (T / n) n (i : Int) := by
  rw [List.mem_map]
  constructor
  · rintro ⟨i, hi, e⟩
    rw [List.mem_range] at hi
    exact ⟨i, by omega, e.symm⟩
  · rintro ⟨i, hi, e⟩
    exact ⟨i, by rw [List.mem_range]; omega, e.symm⟩

theorem ideal_start_mono {T n : Int} (hT : 0 ≤ T) (hn : 0 < n) {i j : Int} (hij : i ≤ j) :
    (idealInterval T (T / n) n i).1 ≤ (idealInterval T (T / n) n j).1 :=
  Int.mul_le_mul_of_nonneg_right hij (div_facts hT hn).1

theorem ideal_end_lt_start {T n : Int} (hT : 0 ≤ T) (hn : 0 < n) {i j : Int}
    (hij : i < j) (hj : j < n) :
    (idealInterval T (T / n) n i).2 < (idealInterval T (T / n) n j).1 := by
  have h := ideal_start_mono hT hn (by omega : i + 1 ≤ j)
  have e : (i + 1) * (T / n) = i * (T / n) + T / n := by ring
  simp only [idealInterval] at h ⊢
  rw [if_neg (by omega)]
  omega

/-- Every offset of `[0, T-1]` lies in the interval of some chunk index. -/
theorem ideal_cover {T n : Int} (hT : 0 ≤ T) (hn : 0 < n) {x : Int} (h0 : 0 ≤ x)
    (hx : x ≤ T - 1) :
    ∃ i : Nat, (i : Int) < n ∧ (idealInterval T (T / n) n (i : Int)).1 ≤ x ∧
      x ≤ (idealInterval T (T / n) n (i : Int)).2 := by
  obtain ⟨h4, h1, h2, _⟩ := div_facts hT hn
  by_cases hlast : (n - 1) * (T / n) ≤ x
  · refine ⟨(n - 1).toNat, by omega, ?_, ?_⟩
    · have e : (((n - 1).toNat : Nat) : Int) = n - 1 := by omega
      simp only [idealInterval, e]; exact hlast
    · have e : (((n - 1).toNat : Nat) : Int) = n - 1 := by omega
      simp only [idealInterval, e, if_true]; exact hx
  · have hcs : 0 < T / n := by
      rcases lt_or_ge 0 (T / n) with h | h
      · exact h
      · have : T / n = 0 := by omega
        rw [this] at hlast; simp at hlast; omega
    have hq0 : 0 ≤ x / (T / n) := Int.ediv_nonneg h0 h4
    have hq1 : x / (T / n) * (T / n) ≤ x := Int.ediv_mul_le x (by omega)
    have hq2 := Int.emod_add_ediv x (T / n)
    have hq3 : x % (T / n) < T / n := Int.emod_lt_of_pos x hcs
    have hq4 : x / (T / n) * (T / n) = T / n * (x / (T / n)) := by ring
    have hq5 : x / (T / n) < n - 1 := by
      by_contra hc
      have : (n - 1) * (T / n) ≤ x / (T / n) * (T / n) :=
        Int.mul_le_mul_of_nonneg_right (by omega) h4
      omega
    have e : (((x / (T / n)).toNat : Nat) : Int) = x / (T / n) := by omega
    refine ⟨(x / (T / n)).toNat, by omega, ?_, ?_⟩
    · simp only [idealInterval, e]; exact hq1
    · simp only [idealInterval, e]
      rw [if_neg (by omega)]
      omega

/-- Every chunk interval lies inside `[0, T-1]` when it is non-empty. -/
theorem ideal_within {T n : Int} (hT : 0 ≤ T) (hn : 0 < n) {i : Int} (hi0 : 0 ≤ i)
    (hi : i < n) :
    0 ≤ (idealInterval T (T / n) n i).1 ∧ (idealInterval T (T / n) n i).2 ≤ T - 1 := by
  obtain ⟨h7, _⟩ := mul_chunk_le hT hn hi0 (le_of_lt hi)
  obtain ⟨_, h9⟩ := mul_chunk_le hT hn (by omega : (0 : Int) ≤ i + 1) (by omega : i + 1 ≤ n)
  have h10 : (i + 1) * (T / n) = i * (T / n) + T / n := by ring
  simp only [idealInterval]
  refine ⟨h7, ?_⟩
  split
  · exact le_refl _
  · omega

/-! ## Claims about the partition -/

/-- C1: for every `totalSize > 0` and `chunkCount > 0` (both machine integers, also
when `totalSize < chunkCount`) the partition loop of `main` produces `chunkCount`
intervals that are ordered by start offset (strictly when `chunkCount ≤ totalSize`,
the chunks before the last being empty otherwise), contiguous (the first starts at `0`,
each next one starts right after the end of the previous one), pairwise disjoint as
inclusive byte ranges, and whose union is exactly `[0, totalSize - 1]`. -/
theorem C1_partition_coverage (totalSize chunkCount : Int)
    (hT : 0 < totalSize) (hT64 : totalSize ≤ 9223372036854775807)
    (hn : 0 < chunkCount) (hn64 : chunkCount ≤ 9223372036854775807) :
    ∃ l, mainChunks totalSize chunkCount = some l ∧ (l.length : Int) = chunkCount ∧
      (∀ (i j : Nat) (a b : Int × Int), i ≤ j → l[i]? = some a → l[j]? = some b → a.1 ≤ b.1) ∧
      (chunkCount ≤ totalSize →
        ∀ (i j : Nat) (a b : Int × Int), i < j → l[i]? = some a → l[j]? = some b → a.1 < b.1) ∧
      (∃ a, l[0]? = some a ∧ a.1 = 0) ∧
      (∀ (i : Nat) (a b : Int × Int), l[i]? = some a → l[i + 1]? = some b → b.1 = a.2 + 1) ∧
      (∀ (i j : Nat) (a b : Int × Int), i ≠ j → l[i]? = some a → l[j]? = some b →
        ∀ x : Int, ¬ (a.1 ≤ x ∧ x ≤ a.2 ∧ b.1 ≤ x ∧ x ≤ b.2)) ∧
      (∀ x : Int, (∃ a ∈ l, a.1 ≤ x ∧ x ≤ a.2) ↔ (0 ≤ x ∧ x ≤ totalSize - 1)) := by
  have hT0 : 0 ≤ totalSize := le_of_lt hT
  refine ⟨_, mainChunks_eq hT0 hT64 hn hn64, ?_, ?_, ?_, ?_, ?_, ?_, ?_⟩
  · simp only [List.length_map, List.length_range]; omega
  · intro i j a b hij ha hb
    rw [ideal_getElem?] at ha hb
    rw [ha.2.2, hb.2.2]
    exact ideal_start_mono hT0 hn (by omega)
  · intro hle i j a b hij ha hb
    rw [ideal_getElem?] at ha hb
    rw [ha.2.2, hb.2.2]
    obtain ⟨_, _, h3, _⟩ := div_facts hT0 hn
    have hcs : 1 ≤ totalSize / chunkCount := by
      by_contra hc
      have : totalSize / chunkCount * chunkCount ≤ 0 * chunkCount :=
        Int.mul_le_mul_of_nonneg_right (by omega) (by omega)
      omega
    have h := ideal_start_mono hT0 hn (by omega : ((i : Int) + 1) ≤ (j : Int))
    have e : ((i : Int) + 1) * (totalSize / chunkCount) =
        (i : Int) * (totalSize / chunkCount) + totalSize / chunkCount := by ring
    simp only [idealInterval] at h ⊢
    omega
  · refine ⟨_, (ideal_getElem? 0 _).2 ⟨by simpa using hn, hn, rfl⟩, ?_⟩
    simp [idealInterval]
  · intro i a b ha hb
    rw [ideal_getElem?] at ha hb
    rw [ha.2.2, hb.2.2]
    have hb1 := hb.1
    push_cast at hb1 ⊢
    simp only [idealInterval]
    rw [if_neg (by omega)]
    ring
  · intro i j a b hij ha hb x
    rw [ideal_getElem?] at ha hb
    rw [ha.2.2, hb.2.2]
    rcases Nat.lt_or_gt_of_ne hij with h | h
    · have := ideal_end_lt_start hT0 hn (by omega : (i : Int) < (j : Int)) hb.1
      omega
    · have := ideal_end_lt_start hT0 hn (by omega : (j : Int) < (i : Int)) ha.1
      omega
  · intro x
    constructor
    · rintro ⟨a, ha, h1, h2⟩
      rw [ideal_mem] at ha
      obtain ⟨i, hi, e⟩ := ha
      have := ideal_within hT0 hn (by omega : (0 : Int) ≤ (i : Int)) hi
      rw [e] at h1 h2
      omega
    · rintro ⟨h0, hx⟩
      obtain ⟨i, hi, h1, h2⟩ := ideal_cover hT0 hn h0 hx
      exact ⟨_, (ideal_mem _).2 ⟨i, hi, rfl⟩, h1, h2⟩

/-- Witness of C1 at `totalSize = 3`, `chunkCount = 8` (fewer bytes than chunks). -/
theorem C1_partition_coverage_witness :
    ∃ l, mainChunks 3 8 = some l ∧ (l.length : Int) = 8 ∧
      (∀ (i j : Nat) (a b : Int × Int), i ≤ j → l[i]? = some a → l[j]? = some b → a.1 ≤ b.1) ∧
      ((8 : Int) ≤ 3 →
        ∀ (i j : Nat) (a b : Int × Int), i < j → l[i]? = some a → l[j]? = some b → a.1 < b.1) ∧
      (∃ a, l[0]? = some a ∧ a.1 = 0) ∧
      (∀ (i : Nat) (a b : Int × Int), l[i]? = some a → l[i + 1]? = some b → b.1 = a.2 + 1) ∧
      (∀ (i j : Nat) (a b : Int × Int), i ≠ j → l[i]? = some a → l[j]? = some b →
        ∀ x : Int, ¬ (a.1 ≤ x ∧ x ≤ a.2 ∧ b.1 ≤ x ∧ x ≤ b.2)) ∧
      (∀ x : Int, (∃ a ∈ l, a.1 ≤ x ∧ x ≤ a.2) ↔ (0 ≤ x ∧ x ≤ 3 - 1)) :=
  C1_partition_coverage 3 8 (by decide) (by decide) (by decide) (by decide)

/-- C2: for every `totalSize ≥ 0` and `chunkCount > 0` every interval of the
partition loop except the last has exactly `totalSize / chunkCount` bytes, the
last one has `totalSize / chunkCount + totalSize % chunkCount` bytes and ends at
`totalSize - 1`; `100` bytes in `8` chunks give
`[0,11],[12,23],[24,35],[36,47],[48,59],[60,71],[72,83],[84,99]`, and `631207581`
bytes in `8` chunks give `8` intervals, the 8th ending at byte `631207580`. -/
theorem C2_partition_remainder :
    (∀ totalSize chunkCount : Int, 0 ≤ totalSize → totalSize ≤ 9223372036854775807 →
      0 < chunkCount → chunkCount ≤ 9223372036854775807 →
      ∃ l, mainChunks totalSize chunkCount = some l ∧ (l.length : Int) = chunkCount ∧
        (∀ (i : Nat) a, l[i]? = some a → (i : Int) < chunkCount - 1 →
          a.2 - a.1 + 1 = totalSize / chunkCount) ∧
        (∀ (i : Nat) a, l[i]? = some a → (i : Int) = chunkCount - 1 →
          a.2 - a.1 + 1 = totalSize / chunkCount + totalSize % chunkCount ∧
          a.2 = totalSize - 1)) ∧
    mainChunks 100 8 = some [(0, 11), (12, 23), (24, 35), (36, 47), (48, 59), (60, 71),
      (72, 83), (84, 99)] ∧
    (∃ l, mainChunks 631207581 8 = some l ∧ l.length = 8 ∧
      (l[7]?).map Prod.snd = some 631207580) := by
  refine ⟨?_, by decide, ⟨_, rfl, by decide, by decide⟩⟩
  intro T n hT hT64 hn hn64
  refine ⟨_, mainChunks_eq hT hT64 hn hn64, ?_, ?_, ?_⟩
  · simp only [List.length_map, List.length_range]; omega
  · intro i a ha hi
    rw [ideal_getElem?] at ha
    rw [ha.2.2]
    simp only [idealInterval]
    rw [if_neg (by omega)]
    omega
  · intro i a ha hi
    rw [ideal_getElem?] at ha
    rw [ha.2.2]
    simp only [idealInterval]
    rw [if_pos hi, hi]
    have h2 := Int.emod_add_ediv T n
    have e : (n - 1) * (T / n) = n * (T / n) - T / n := by ring
    constructor
    · omega
    · trivial

/-- Witness of C2 at `totalSize = 100`, `chunkCount = 8`. -/
theorem C2_partition_remainder_witness :
    ∃ l, mainChunks 100 8 = some l ∧ (l.length : Int) = 8 ∧
      (∀ (i : Nat) a, l[i]? = some a → (i : Int) < 8 - 1 → a.2 - a.1 + 1 = 100 / 8) ∧
      (∀ (i : Nat) a, l[i]? = some a → (i : Int) = 8 - 1 →
        a.2 - a.1 + 1 = 100 / 8 + 100 % 8 ∧ a.2 = 100 - 1) :=
  C2_partition_remainder.1 100 8 (by decide) (by decide) (by decide) (by decide)

/-! ## Claims about `SectionWriter.Write` -/

theorem write_exhausted {τ : Type} (W : Writer τ) (s : SectionWriter) (t : τ) (p : List Byte)
    (h : s.Off ≥ s.Size) : s.Write W t p = some ⟨s, t, 0, some .sectionExhausted⟩ := by
  unfold SectionWriter.Write
  rw [if_pos h]

/-- The result of `Write` on a section with free space whose size is representable. -/
theorem write_open {τ : Type} (W : Writer τ) (s : SectionWriter) (t : τ) (p : List Byte)
    (hfit : s.Size - s.Off ≤ 9223372036854775807) (hlt : s.Off < s.Size) :
    s.Write W t p =
      some ⟨{ s with Off := wrap64 (s.Off + (W.call t
          (p.take (min (p.length : Int) (s.Size - s.Off)).toNat) (wrap64 (s.Base + s.Off))).n) },
        (W.call t (p.take (min (p.length : Int) (s.Size - s.Off)).toNat)
          (wrap64 (s.Base + s.Off))).target,
        (W.call t (p.take (min (p.length : Int) (s.Size - s.Off)).toNat)
          (wrap64 (s.Base + s.Off))).n,
        (W.call t (p.take (min (p.length : Int) (s.Size - s.Off)).toNat)
          (wrap64 (s.Base + s.Off))).err⟩ := by
  have hmax : wrap64 (s.Size - s.Off) = s.Size - s.Off := wrap64_eq (by omega) hfit
  unfold SectionWriter.Write
  rw [if_neg (by omega), hmax]
  by_cases hlen : (p.length : Int) > s.Size - s.Off
  · have e : (min (p.length : Int) (s.Size - s.Off)) = s.Size - s.Off := by omega
    simp only [if_pos hlen, if_neg (by omega : ¬ s.Size - s.Off < 0), e]
  · have e : (min (p.length : Int) (s.Size - s.Off)).toNat = p.length := by omega
    simp only [if_neg hlen, e, List.take_length]

/-- C3: on a section with `Off < Size` (fields in the `int64` range, the free space
`Size - Off` representable, as it is whenever `Off ≥ 0`) over a target whose
addressed write stores all the bytes it is given, `Write(p)` hands exactly the
first `min(len(p), Size - Off)` bytes of `p` to the target, returns that count with
no error, and advances `Off` by that count. -/
theorem C3_write_clips {τ : Type} (W : Writer τ)
    (writeAt : τ → List Byte → Int → WriteRes τ) (s : SectionWriter) (t : τ) (p : List Byte)
    (hW : W.WriteAt = some writeAt)
    (hall : ∀ q, (writeAt t q (wrap64 (s.Base + s.Off))).n = q.length ∧
      (writeAt t q (wrap64 (s.Base + s.Off))).err = none)
    (hS : isInt64 s.Size) (hO : isInt64 s.Off)
    (hfit : s.Size - s.Off ≤ 9223372036854775807) (hlt : s.Off < s.Size) :
    ∃ r, s.Write W t p = some r ∧
      r.n = min (p.length : Int) (s.Size - s.Off) ∧ r.err = none ∧
      r.target = (writeAt t (p.take (min (p.length : Int) (s.Size - s.Off)).toNat)
        (wrap64 (s.Base + s.Off))).target ∧
      r.s = { s with Off := s.Off + min (p.length : Int) (s.Size - s.Off) } := by
  have hcall : ∀ q off, W.call t q off = writeAt t q off := by
    intro q off; unfold Writer.call; rw [hW]
  have hn := (hall (p.take (min (p.length : Int) (s.Size - s.Off)).toNat)).1
  have hlen : ((p.take (min (p.length : Int) (s.Size - s.Off)).toNat).length : Int) =
      min (p.length : Int) (s.Size - s.Off) := by
    rw [List.length_take]; omega
  refine ⟨_, write_open W s t p hfit hlt, ?_, ?_, ?_, ?_⟩
  · simp only [hcall]; rw [hn, hlen]
  · simp only [hcall]; exact (hall _).2
  · simp only [hcall]
  · simp only [hcall]
    rw [hn, hlen, wrap64_eq]
    · have := hS.1; have := hO.1; omega
    · have := hS.2; omega

/-- Witness of C3: a section with `Size = 10`, `Off = 0` over a file of twelve zero
bytes, written with fifteen bytes. -/
theorem C3_write_clips_witness :
    ∃ r, SectionWriter.Write osFile ⟨0, 10, 0⟩ ⟨List.replicate 12 0, 0⟩ (List.replicate 15 7)
        = some r ∧
      r.n = min (((List.replicate 15 (7 : Byte)).length : Nat) : Int) (10 - 0) ∧ r.err = none ∧
      r.target = (File.WriteAt ⟨List.replicate 12 0, 0⟩
        ((List.replicate 15 7).take (min (((List.replicate 15 (7 : Byte)).length : Nat) : Int)
          (10 - 0)).toNat) (wrap64 (0 + 0))).target ∧
      r.s = { (⟨0, 10, 0⟩ : SectionWriter) with
        Off := 0 + min (((List.replicate 15 (7 : Byte)).length : Nat) : Int) (10 - 0) } :=
  C3_write_clips osFile File.WriteAt ⟨0, 10, 0⟩ ⟨List.replicate 12 0, 0⟩ (List.replicate 15 7)
    rfl (fun q => ⟨by simp [File.WriteAt, wrap64], by simp [File.WriteAt, wrap64]⟩)
    (by decide) (by decide) (by decide) (by decide)

/-- C4: on a section with `Off ≥ Size`, `Write(p)` returns `(0, section exhausted)`
for every `p`, makes no call on the target (the record of calls is unchanged) and
leaves the target and `Base`, `Size`, `Off` as they were; and when the write on the
target returns no error, `Write` returns the section-exhausted error only if
`Off ≥ Size`. -/
theorem C4_write_exhausted {τ : Type} (W : Writer τ) (s : SectionWriter) (t : τ)
    (p : List Byte) :
    (s.Off ≥ s.Size →
      s.Write W t p = some ⟨s, t, 0, some .sectionExhausted⟩ ∧
      ∀ log, s.Write W.logged (t, log) p = some ⟨s, (t, log), 0, some .sectionExhausted⟩) ∧
    ((∀ q, (W.call t q (wrap64 (s.Base + s.Off))).err = none) →
      ∀ r, s.Write W t p = some r → r.err = some .sectionExhausted → s.Off ≥ s.Size) := by
  constructor
  · intro h
    exact ⟨write_exhausted W s t p h, fun log => write_exhausted _ s (t, log) p h⟩
  · intro hok r hr herr
    by_contra hlt
    unfold SectionWriter.Write at hr
    rw [if_neg hlt] at hr
    simp only at hr
    split at hr
    · cases hr
    · cases hr
      simp only at herr
      rw [hok] at herr
      cases herr

/-- Witness of C4: a full section (`Off = Size = 10`), and an open one over a file. -/
theorem C4_write_exhausted_witness :
    ((10 : Int) ≥ 10 ∧
      SectionWriter.Write osFile ⟨0, 10, 10⟩ ⟨List.replicate 12 0, 0⟩ [1, 2, 3] =
        some ⟨⟨0, 10, 10⟩, ⟨List.replicate 12 0, 0⟩, 0, some .sectionExhausted⟩) ∧
    (∀ r, SectionWriter.Write osFile ⟨0, 10, 4⟩ ⟨List.replicate 12 0, 0⟩ [1, 2, 3] = some r →
      r.err = some .sectionExhausted → (4 : Int) ≥ 10) :=
  ⟨⟨by decide, ((C4_write_exhausted osFile ⟨0, 10, 10⟩ ⟨List.replicate 12 0, 0⟩ [1, 2, 3]).1
      (by decide)).1⟩,
    (C4_write_exhausted osFile ⟨0, 10, 4⟩ ⟨List.replicate 12 0, 0⟩ [1, 2, 3]).2
      (fun q => by simp [Writer.call, osFile, File.WriteAt, wrap64])⟩

/-! ## Sequences of writes on one section -/

theorem logged_call {τ : Type} (W : Writer τ) (writeAt : τ → List Byte → Int → WriteRes τ)
    (hW : W.WriteAt = some writeAt) (t : τ) (log : List Call) (q : List Byte) (off : Int) :
    W.logged.call (t, log) q off =
      ⟨((writeAt t q off).target, log ++ [⟨some off, q⟩]), (writeAt t q off).n,
        (writeAt t q off).err⟩ := by
  unfold Writer.call Writer.logged
  simp only [hW, Option.map_some']

/-- Invariant of a sequence of writes on a section over a recording target. -/
theorem writeAll_logged_inv {τ β : Type} (W : Writer τ)
    (writeAt : τ → List Byte → Int → WriteRes τ) (read : τ → Int → β)
    (hW : W.WriteAt = some writeAt)
    (hcontract : ∀ t p off, 0 ≤ (writeAt t p off).n ∧ (writeAt t p off).n ≤ p.length ∧
      ∀ k, (k < off ∨ off + (writeAt t p off).n ≤ k) →
        read (writeAt t p off).target k = read t k)
    (Base Size : Int) (hB : isInt64 Base) (hS : Size ≤ 9223372036854775807)
    (hBS : Base + Size ≤ 9223372036854775807) (t0 : τ) (ps : List (List Byte)) :
    ∀ (Off : Int) (t : τ) (log : List Call), 0 ≤ Off → Off ≤ Size →
      (∀ c ∈ log, ∃ off : Int, c.off = some (Base + off) ∧ 0 ≤ off ∧ off < Size ∧
        (c.bytes.length : Int) ≤ Size - off) →
      (∀ k, (k < Base ∨ Base + Size ≤ k) → read t k = read t0 k) →
      ∃ s' t' log', writeAll W.logged ⟨Base, Size, Off⟩ (t, log) ps = some (s', (t', log')) ∧
        s'.Base = Base ∧ s'.Size = Size ∧ 0 ≤ s'.Off ∧ s'.Off ≤ Size ∧
        (∀ c ∈ log', ∃ off : Int, c.off = some (Base + off) ∧ 0 ≤ off ∧ off < Size ∧
          (c.bytes.length : Int) ≤ Size - off) ∧
        (∀ k, (k < Base ∨ Base + Size ≤ k) → read t' k = read t0 k) := by
  induction ps with
  | nil =>
    intro Off t log h0 h1 hlog hfr
    exact ⟨_, _, _, rfl, rfl, rfl, h0, h1, hlog, hfr⟩
  | cons p ps ih =>
    intro Off t log h0 h1 hlog hfr
    by_cases hfull : Off ≥ Size
    · have hw := write_exhausted W.logged ⟨Base, Size, Off⟩ (t, log) p hfull
      simp only [writeAll, hw]
      exact ih Off t log h0 h1 hlog hfr
    · have hw := write_open W.logged ⟨Base, Size, Off⟩ (t, log) p
        (by simp only; omega) (by simp only; omega)
      have hoff : wrap64 (Base + Off) = Base + Off :=
        wrap64_eq (by have := hB.1; omega) (by omega)
      simp only [logged_call W writeAt hW, hoff] at hw
      simp only [writeAll, hw]
      obtain ⟨hn0, hn1, hframe⟩ := hcontract t
        (p.take (min (p.length : Int) (Size - Off)).toNat) (Base + Off)
      have hlen : ((p.take (min (p.length : Int) (Size - Off)).toNat).length : Int) ≤
          Size - Off := by
        rw [List.length_take]; omega
      rw [wrap64_eq (x := Off + _) (by omega) (by omega)]
      apply ih
      · omega
      · omega
      · intro c hc
        rw [List.mem_append, List.mem_singleton] at hc
        rcases hc with hc | hc
        · exact hlog c hc
        · subst hc
          exact ⟨Off, rfl, h0, by omega, hlen⟩
      · intro k hk
        rw [hframe k (by omega)]
        exact hfr k hk

theorem writeAll_append {τ : Type} (W : Writer τ) (p : List Byte) (ps : List (List Byte)) :
    ∀ (s : SectionWriter) (t : τ),
      writeAll W s t (ps ++ [p]) =
        match writeAll W s t ps with
        | none => none
        | some st =>
          match st.1.Write W st.2 p with
          | none => none
          | some r => some (r.s, r.target) := by
  induction ps with
  | nil =>
    intro s t
    simp only [List.nil_append, writeAll]
  | cons q ps ih =>
    intro s t
    simp only [List.cons_append, writeAll]
    cases s.Write W t q with
    | none => rfl
    | some r => exact ih r.s r.target

/-- C5: for every section created with `Off = 0` (window `[Base, Base + Size)` of
non-negative size inside the `int64` offsets) over a target with addressed writes
that store `n ≤ len(p)` bytes at the given offset, and for every finite sequence
of `Write` calls: every call on the target is made at `Base + Off` for an `Off`
with `0 ≤ Off < Size` and with at most `Size - Off` bytes, `Off` stays within
`[0, Size]`, and every byte of the target outside `[Base, Base + Size)` is
unchanged.  The `Off` of a call is the cursor of the section at that moment: after
any sequence `ps` of calls that leaves the cursor at `Off < Size`, the next
`Write(p)` makes exactly one call on the target, at `Base + Off`, with the first
`min(len(p), Size - Off)` bytes of `p`, and advances the cursor by the count the
target returns; with the cursor at `Size` it makes no call. -/
theorem C5_section_confined {τ β : Type} (W : Writer τ)
    (writeAt : τ → List Byte → Int → WriteRes τ) (read : τ → Int → β)
    (hW : W.WriteAt = some writeAt)
    (hcontract : ∀ t p off, 0 ≤ (writeAt t p off).n ∧ (writeAt t p off).n ≤ p.length ∧
      ∀ k, (k < off ∨ off + (writeAt t p off).n ≤ k) →
        read (writeAt t p off).target k = read t k)
    (Base Size : Int) (hB : isInt64 Base) (hS0 : 0 ≤ Size) (hS : Size ≤ 9223372036854775807)
    (hBS : Base + Size ≤ 9223372036854775807) (t : τ) (ps : List (List Byte))
    (p : List Byte) :
    ∃ s' t' log, writeAll W.logged ⟨Base, Size, 0⟩ (t, []) ps = some (s', (t', log)) ∧
      s'.Base = Base ∧ s'.Size = Size ∧ 0 ≤ s'.Off ∧ s'.Off ≤ Size ∧
      (∀ c ∈ log, ∃ off : Int, c.off = some (Base + off) ∧ 0 ≤ off ∧ off < Size ∧
        (c.bytes.length : Int) ≤ Size - off) ∧
      (∀ k, (k < Base ∨ Base + Size ≤ k) → read t' k = read t k) ∧
      (s'.Off < Size →
        writeAll W.logged ⟨Base, Size, 0⟩ (t, []) (ps ++ [p]) =
          some (⟨Base, Size, s'.Off +
              (writeAt t' (p.take (min (p.length : Int) (Size - s'.Off)).toNat)
                (Base + s'.Off)).n⟩,
            ((writeAt t' (p.take (min (p.length : Int) (Size - s'.Off)).toNat)
                (Base + s'.Off)).target,
              log ++ [⟨some (Base + s'.Off),
                p.take (min (p.length : Int) (Size - s'.Off)).toNat⟩]))) ∧
      (Size ≤ s'.Off →
        writeAll W.logged ⟨Base, Size, 0⟩ (t, []) (ps ++ [p]) = some (s', (t', log))) := by
  obtain ⟨s', t', log, hrun, h1, h2, h3, h4, h5, h6⟩ :=
    writeAll_logged_inv W writeAt read hW hcontract Base Size hB hS hBS t ps 0 t []
      (le_refl 0) hS0 (fun c hc => by cases hc) (fun _ _ => rfl)
  refine ⟨s', t', log, hrun, h1, h2, h3, h4, h5, h6, ?_, ?_⟩
  · intro hlt
    obtain ⟨B, S, o⟩ := s'
    simp only at h1 h2 h3 h4 hlt
    subst h1 h2
    have hw := write_open W.logged ⟨B, S, o⟩ (t', log) p (by simp only; omega)
      (by simp only; omega)
    have hoff : wrap64 (B + o) = B + o := wrap64_eq (by have := hB.1; omega) (by omega)
    simp only [logged_call W writeAt hW, hoff] at hw
    obtain ⟨hn0, hn1, _⟩ := hcontract t' (p.take (min (p.length : Int) (S - o)).toNat) (B + o)
    have hlen : ((p.take (min (p.length : Int) (S - o)).toNat).length : Int) ≤ S - o := by
      rw [List.length_take]; omega
    rw [wrap64_eq (x := o + _) (by omega) (by omega)] at hw
    rw [writeAll_append, hrun]
    simp only [hw]
  · intro hfull
    rw [writeAll_append, hrun]
    simp only [write_exhausted W.logged s' (t', log) p (by rw [h2]; exact hfull)]

theorem writeBytes_nil (d : List Byte) (o : Nat) : writeBytes d o [] = d := by
  simp [writeBytes]

theorem writeBytes_length (d : List Byte) (o : Nat) (p : List Byte) (hp : p ≠ []) :
    (writeBytes d o p).length = max d.length (o + p.length) := by
  have : p.isEmpty = false := by cases p <;> simp_all
  simp only [writeBytes, this]
  simp only [Bool.false_eq_true, if_false, List.length_append, List.length_take,
    List.length_replicate, List.length_drop]
  omega

theorem writeBytes_length_of_le (d : List Byte) (o : Nat) (p : List Byte)
    (h : o + p.length ≤ d.length) : (writeBytes d o p).length = d.length := by
  by_cases hp : p = []
  · rw [hp, writeBytes_nil]
  · rw [writeBytes_length d o p hp]; omega

theorem writeBytes_getElem? (d : List Byte) (o : Nat) (p : List Byte) (hp : p ≠ []) (k : Nat) :
    (writeBytes d o p)[k]? =
      if k < o then (if k < d.length then d[k]? else some 0)
      else if k < o + p.length then p[k - o]? else d[k]? := by
  have : p.isEmpty = false := by cases p <;> simp_all
  simp only [writeBytes, this, Bool.false_eq_true, if_false]
  by_cases h1 : k < o
  · rw [if_pos h1, List.append_assoc, List.append_assoc]
    by_cases h2 : k < d.length
    · rw [if_pos h2, List.getElem?_append_left (by rw [List.length_take]; omega),
        List.getElem?_take_of_lt h1]
    · rw [if_neg h2, List.getElem?_append_right (by rw [List.length_take]; omega),
        List.getElem?_append_left (by rw [List.length_take, List.length_replicate]; omega),
        List.getElem?_replicate, if_pos (by rw [List.length_take]; omega)]
  · rw [if_neg h1]
    have hX : (d.take o ++ List.replicate (o - d.length) 0).length = o := by
      rw [List.length_append, List.length_take, List.length_replicate]; omega
    by_cases h2 : k < o + p.length
    · rw [if_pos h2, List.getElem?_append_left (by rw [List.length_append, hX]; omega),
        List.getElem?_append_right (by rw [hX]; omega), hX]
    · rw [if_neg h2, List.getElem?_append_right (by rw [List.length_append, hX]; omega),
        List.length_append, hX, List.getElem?_drop]
      congr 1
      omega

theorem writeBytes_append (d : List Byte) (o : Nat) (p q : List Byte) :
    writeBytes (writeBytes d o p) (o + p.length) q = writeBytes d o (p ++ q) := by
  by_cases hq : q = []
  · rw [hq, writeBytes_nil, List.append_nil]
  by_cases hp : p = []
  · rw [hp, writeBytes_nil]; simp
  apply List.ext_getElem?
  intro k
  rw [writeBytes_getElem? _ _ q hq, writeBytes_getElem? d o (p ++ q) (by simp [hp]),
    writeBytes_length d o p hp, writeBytes_getElem? d o p hp, List.length_append]
  have hpl : 0 < p.length := List.length_pos.mpr hp
  have e1 : k < o + p.length → (p ++ q)[k - o]? = p[k - o]? := fun h =>
    List.getElem?_append_left (by omega)
  have e2 : ¬ k < o + p.length → (p ++ q)[k - o]? = q[k - (o + p.length)]? := fun h => by
    rw [List.getElem?_append_right (by omega)]
    congr 1
    omega
  split_ifs <;> first | rfl | omega | (rw [e1 (by omega)]) | (rw [e2 (by omega)])

theorem writeBytes_getD (d : List Byte) (o : Nat) (p : List Byte) (k : Nat) :
    (writeBytes d o p).getD k 0 =
      if o ≤ k ∧ k < o + p.length then p.getD (k - o) 0 else d.getD k 0 := by
  by_cases hp : p = []
  · rw [hp, writeBytes_nil, if_neg (by simp)]
  simp only [List.getD_eq_getElem?_getD]
  rw [writeBytes_getElem? d o p hp]
  have e : ¬ k < d.length → d[k]? = none := fun h => List.getElem?_eq_none (by omega)
  split_ifs <;> first | rfl | omega | (rw [e (by omega)]; rfl)


theorem file_writeAt_contract (t : File) (p : List Byte) (off : Int) :
    0 ≤ (File.WriteAt t p off).n ∧ (File.WriteAt t p off).n ≤ p.length ∧
      ∀ k, (k < off ∨ off + (File.WriteAt t p off).n ≤ k) →
        File.byteAt (File.WriteAt t p off).target k = File.byteAt t k := by
  unfold File.WriteAt
  by_cases h : off < 0
  · rw [if_pos h]
    exact ⟨le_refl 0, by simp, fun _ _ => rfl⟩
  · rw [if_neg h]
    refine ⟨by simp, le_refl _, ?_⟩
    intro k hk
    simp only at hk
    unfold File.byteAt
    by_cases hk0 : k < 0
    · rw [if_pos hk0, if_pos hk0]
    · rw [if_neg hk0, if_neg hk0]
      simp only
      rw [writeBytes_getD, if_neg (by omega)]

theorem write_file (B S o : Int) (f : File) (p : List Byte) (hB : 0 ≤ B) (ho : 0 ≤ o)
    (hlt : o < S) (hBS : B + S ≤ 9223372036854775807) :
    SectionWriter.Write osFile ⟨B, S, o⟩ f p =
      some ⟨⟨B, S, o + min (p.length : Int) (S - o)⟩,
        ⟨writeBytes f.data (B + o).toNat (p.take (min (p.length : Int) (S - o)).toNat), f.pos⟩,
        min (p.length : Int) (S - o), none⟩ := by
  have hw := write_open osFile ⟨B, S, o⟩ f p (by simp only; omega) (by simp only; omega)
  have hoff : wrap64 (B + o) = B + o := wrap64_eq (by omega) (by omega)
  have hlen : ((p.take (min (p.length : Int) (S - o)).toNat).length : Int) =
      min (p.length : Int) (S - o) := by
    rw [List.length_take]; omega
  simp only [Writer.call, osFile, File.WriteAt, hoff, if_neg (by omega : ¬ B + o < 0), hlen] at hw
  unfold osFile
  rw [hw, wrap64_eq (by omega) (by omega)]

theorem delivered_cons (ev : ReadEvent) (rest : List ReadEvent) :
    delivered (ev :: rest) = ev.data ++ (if ev.err.isSome then [] else delivered rest) := by
  rw [delivered]
  cases ev.err <;> simp

/-- What `io.Copy` of a sequence of reads into a section over a file leaves. -/
theorem ioCopy_file (B S : Int) (hB : 0 ≤ B) (hBS : B + S ≤ 9223372036854775807)
    (evs : List ReadEvent) :
    ∀ (o : Int) (f : File) (w : Int), 0 ≤ o → o ≤ S →
      ∃ r, ioCopy osFile ⟨B, S, o⟩ f w evs = some r ∧
        r.s = ⟨B, S, o + min ((delivered evs).length : Int) (S - o)⟩ ∧
        r.target = ⟨writeBytes f.data (B + o).toNat
          ((delivered evs).take (min ((delivered evs).length : Int) (S - o)).toNat), f.pos⟩ ∧
        (r.err = none ↔ ((delivered evs).length : Int) ≤ S - o ∧ readFailure evs = none) ∧
        (S - o < ((delivered evs).length : Int) →
          r.err = some .shortWrite ∨ r.err = some .sectionExhausted) := by
  induction evs with
  | nil =>
    intro o f w ho hoS
    refine ⟨_, rfl, ?_, ?_, ?_, ?_⟩
    · simp [delivered]; omega
    · simp [delivered, writeBytes_nil]
    · simp [delivered, readFailure]; omega
    · simp [delivered]; omega
  | cons ev rest ih =>
    intro o f w ho hoS
    obtain ⟨data, err⟩ := ev
    have hS0 : o = S ∨ o < S := by omega
    simp only [ioCopy, delivered_cons, readFailure]
    by_cases hnr : ((data.length : Nat) : Int) > 0
    · rw [if_pos hnr]
      by_cases hfull : o ≥ S
      · have hw := write_exhausted osFile ⟨B, S, o⟩ f data hfull
        have hbad : ¬ ((0 : Int) < 0 ∨ ((data.length : Nat) : Int) < 0) := by omega
        simp only [hw, hbad, decide_False, Bool.false_eq_true, if_false]
        have hmin : min (((data ++ if err.isSome = true then [] else delivered rest).length
            : Nat) : Int) (S - o) = 0 := by
          rw [List.length_append]; omega
        refine ⟨_, rfl, ?_, ?_, ?_, ?_⟩
        · simp only [hmin, add_zero]
        · simp only [hmin, Int.toNat_zero, List.take_zero, writeBytes_nil]
        · simp only [List.length_append]
          constructor
          · intro h; cases h
          · intro h; omega
        · intro _; exact Or.inr rfl
      · have hw := write_file B S o f data hB ho (by omega) hBS
        simp only [hw]
        by_cases hfit : ((data.length : Nat) : Int) ≤ S - o
        · have hm : min ((data.length : Nat) : Int) (S - o) = data.length := by omega
          have hbad : ¬ (((data.length : Nat) : Int) < 0 ∨
              ((data.length : Nat) : Int) < ((data.length : Nat) : Int)) := by omega
          simp only [hm, hbad, decide_False, Bool.false_eq_true, if_false, ne_eq,
            not_true_eq_false, Int.toNat_ofNat, List.take_length]
          cases err with
          | some er =>
            simp only [Option.isSome_some, if_true, List.append_nil, hm, Int.toNat_ofNat,
              List.take_length]
            refine ⟨_, rfl, rfl, rfl, ?_, ?_⟩
            · simp only [hfit, true_and]
            · intro h; omega
          | none =>
            simp only [Option.isSome_none, Bool.false_eq_true, if_false]
            obtain ⟨r, hr, h1, h2, h3, h4⟩ := ih (o + data.length)
              ⟨writeBytes f.data (B + o).toNat data, f.pos⟩
              (wrap64 (w + data.length)) (by omega) (by omega)
            have hmin : min (((data ++ delivered rest).length : Nat) : Int) (S - o) =
                data.length + min (((delivered rest).length : Nat) : Int)
                  (S - (o + data.length)) := by
              rw [List.length_append]; push_cast; omega
            have htake : (data ++ delivered rest).take (min (((data ++ delivered rest).length
                : Nat) : Int) (S - o)).toNat =
                data ++ (delivered rest).take (min (((delivered rest).length : Nat) : Int)
                  (S - (o + data.length))).toNat := by
              rw [hmin, List.take_append_eq_append_take, List.take_of_length_le (by omega)]
              congr 2
              omega
            refine ⟨r, hr, ?_, ?_, ?_, ?_⟩
            · rw [h1, hmin]; congr 1; omega
            · rw [h2, htake, ← writeBytes_append]
              simp only
              congr 2
              omega
            · rw [h3, List.length_append]; push_cast
              constructor
              · intro h; exact ⟨by omega, h.2⟩
              · intro h; exact ⟨by omega, h.2⟩
            · intro h
              apply h4
              rw [List.length_append] at h; push_cast at h; omega
        · have hm : min ((data.length : Nat) : Int) (S - o) = S - o := by omega
          have hbad : ¬ (S - o < 0 ∨ ((data.length : Nat) : Int) < S - o) := by omega
          have hne : ((data.length : Nat) : Int) ≠ S - o := by omega
          simp only [hm, hbad, decide_False, Bool.false_eq_true, if_false, ne_eq, hne,
            not_false_eq_true, if_true]
          have hmin : min (((data ++ if err.isSome = true then [] else delivered rest).length
              : Nat) : Int) (S - o) = S - o := by
            rw [List.length_append]; push_cast; omega
          refine ⟨_, rfl, ?_, ?_, ?_, ?_⟩
          · simp only [hmin]
          · simp only [hmin]
            rw [List.take_append_of_le_length (by omega)]
          · simp only [List.length_append]
            constructor
            · intro h; cases h
            · intro h; push_cast at h; omega
          · intro _; exact Or.inl rfl
    · rw [if_neg hnr]
      have hd : data = [] := by
        cases data with
        | nil => rfl
        | cons a l => simp at hnr
      subst hd
      simp only [List.nil_append]
      cases err with
      | some er =>
        simp only [Option.isSome_some, if_true, List.length_nil]
        have hmin : min (((0 : Nat) : Int)) (S - o) = 0 := by omega
        refine ⟨_, rfl, ?_, ?_, ?_, ?_⟩
        · simp only [hmin, add_zero]
        · simp only [hmin, Int.toNat_zero, List.take_zero, writeBytes_nil]
        · simp only
          constructor
          · intro h; exact ⟨by omega, h⟩
          · intro h; exact h.2
        · intro h; simp at h; omega
      | none =>
        simp only [Option.isSome_none, Bool.false_eq_true, if_false]
        exact ih o f w ho hoS


/-- Witness of C5: a section of three bytes at offset `2` of an eight-byte file,
written with `[1,2]` and then with `[3,4]`; the second call on the file is made at
offset `4`, the cursor being `2`, with the single byte `[3]`. -/
theorem C5_section_confined_witness :
    (∃ s' t' log, writeAll osFile.logged ⟨2, 3, 0⟩ ((⟨List.replicate 8 0, 0⟩ : File), [])
        [[1, 2]] = some (s', (t', log)) ∧
      s'.Base = 2 ∧ s'.Size = 3 ∧ 0 ≤ s'.Off ∧ s'.Off ≤ 3 ∧
      (∀ c ∈ log, ∃ off : Int, c.off = some (2 + off) ∧ 0 ≤ off ∧ off < 3 ∧
        (c.bytes.length : Int) ≤ 3 - off) ∧
      (∀ k, (k < 2 ∨ 2 + 3 ≤ k) → File.byteAt t' k = File.byteAt ⟨List.replicate 8 0, 0⟩ k) ∧
      (s'.Off < 3 →
        writeAll osFile.logged ⟨2, 3, 0⟩ ((⟨List.replicate 8 0, 0⟩ : File), [])
            ([[1, 2]] ++ [[3, 4]]) =
          some (⟨2, 3, s'.Off +
              (File.WriteAt t' (([3, 4] : List Byte).take
                (min ((([3, 4] : List Byte).length : Nat) : Int) (3 - s'.Off)).toNat)
                (2 + s'.Off)).n⟩,
            ((File.WriteAt t' (([3, 4] : List Byte).take
                (min ((([3, 4] : List Byte).length : Nat) : Int) (3 - s'.Off)).toNat)
                (2 + s'.Off)).target,
              log ++ [⟨some (2 + s'.Off), ([3, 4] : List Byte).take
                (min ((([3, 4] : List Byte).length : Nat) : Int) (3 - s'.Off)).toNat⟩]))) ∧
      (3 ≤ s'.Off →
        writeAll osFile.logged ⟨2, 3, 0⟩ ((⟨List.replicate 8 0, 0⟩ : File), [])
            ([[1, 2]] ++ [[3, 4]]) = some (s', (t', log)))) ∧
    writeAll osFile.logged ⟨2, 3, 0⟩ ((⟨List.replicate 8 0, 0⟩ : File), [])
        ([[1, 2]] ++ [[3, 4]]) =
      some (⟨2, 3, 3⟩, (⟨[0, 0, 1, 2, 3, 0, 0, 0], 0⟩,
        [⟨some 2, [1, 2]⟩, ⟨some 4, [3]⟩])) :=
  ⟨C5_section_confined osFile File.WriteAt File.byteAt rfl file_writeAt_contract 2 3
      (by decide) (by decide) (by decide) (by decide) ⟨List.replicate 8 0, 0⟩ [[1, 2]] [3, 4],
    by decide⟩

/-! ## Claims about `downloadChunk` -/

theorem section_size {start end_ : Int} (h0 : 0 ≤ start) (hse : start ≤ end_)
    (hend : end_ < 9223372036854775807) :
    wrap64 (wrap64 (end_ - start) + 1) = end_ - start + 1 := by
  rw [wrap64_eq (x := end_ - start) (by omega) (by omega), wrap64_eq (by omega) (by omega)]

/-- A run of `downloadChunk` that reaches the copy, in terms of `ioCopy`. -/
theorem downloadChunk_copy (net : Net) (url : String) (start end_ : Int) (output : File)
    (resp : Response) (h0 : 0 ≤ start) (hse : start ≤ end_) (hend : end_ < 9223372036854775807)
    (hreq : net.NewRequestErr url = none)
    (hdo : net.Do (chunkRequest url start end_) = .ok resp)
    (hstatus : resp.StatusCode = 200 ∨ resp.StatusCode = 206) :
    downloadChunk net url start end_ output =
      (ioCopy osFile ⟨start, end_ - start + 1, 0⟩ output 0 resp.Body).map fun r =>
        ⟨r.target, some r.s, r.err.map Error.saveChunk⟩ := by
  have hst : ¬ (resp.StatusCode ≠ 200 ∧ resp.StatusCode ≠ 206) := by
    rcases hstatus with h | h <;> simp [h]
  unfold downloadChunk
  simp only [hreq, hdo, if_neg hst, section_size h0 hse hend]
  cases h : ioCopy osFile ⟨start, end_ - start + 1, 0⟩ output 0 resp.Body with
  | none => rfl
  | some r =>
    simp only [Option.map_some']
    cases r.err <;> rfl

/-- C7 (amended): for every interval with `end > 0` the GET request built by
`downloadChunk` carries the header `Range` with the value `bytes=<start>-<end>`,
both numbers in decimal; for `end ≤ 0`, which includes the interval `[0,0]`, the
request carries no `Range` header. -/
theorem C7_range_header (url : String) (start end_ : Int) :
    (chunkRequest url start end_).Method = "GET" ∧
    (0 < end_ → (chunkRequest url start end_).Header.has "Range" = true ∧
      (chunkRequest url start end_).Header.Get "Range" =
        "bytes=" ++ toString start ++ "-" ++ toString end_) ∧
    (end_ ≤ 0 → (chunkRequest url start end_).Header.has "Range" = false) := by
  refine ⟨rfl, ?_, ?_⟩
  · intro h
    have hh : end_ > 0 := h
    unfold chunkRequest
    simp only [if_pos hh]
    constructor
    · simp [Header.has, Header.Set, List.lookup]
    · simp [Header.Get, Header.Set, List.lookup, rangeValue]
  · intro h
    have hh : ¬ end_ > 0 := by omega
    unfold chunkRequest
    simp only [if_neg hh]
    decide

/-- Witness of C7 (amended): the interval `[12, 23]` and the interval `[0, 0]`. -/
theorem C7_range_header_witness :
    ((0 : Int) < 23 ∧ (chunkRequest "u" 12 23).Header.Get "Range" = "bytes=12-23") ∧
    ((0 : Int) ≤ 0 ∧ (chunkRequest "u" 0 0).Header.has "Range" = false) :=
  ⟨⟨by decide, ((C7_range_header "u" 12 23).2.1 (by decide)).2⟩,
    ⟨by decide, (C7_range_header "u" 0 0).2.2 (by decide)⟩⟩

/-- Counterexample to C7 as stated: for the interval `[0, 0]` (`0 ≤ start ≤ end`) the
request of `downloadChunk` has no `Range` header, so its value is not `bytes=0-0`. -/
theorem C7_counterexample :
    (0 : Int) ≤ 0 ∧ (0 : Int) ≤ 0 ∧ mainChunks 1 1 = some [(0, 0)] ∧
      (chunkRequest "u" 0 0).Header.has "Range" = false ∧
      (chunkRequest "u" 0 0).Header.Get "Range" ≠ "bytes=0-0" := by
  decide


/-- C8 (amended): for every interval `0 ≤ start ≤ end` below `MaxInt64`, and every
response with status 200 or 206 whose body is any finite sequence of reads,
`downloadChunk` returns success exactly when the reads end without an error other
than `io.EOF` and deliver at most `end - start + 1` bytes; on success every
delivered byte has been written, at the offsets from `start` on, the cursor of the
section equals the number of delivered bytes, and the interval is filled exactly
when that number is `end - start + 1`. -/
theorem C8_success_means_body_written (net : Net) (url : String) (start end_ : Int)
    (output : File) (resp : Response)
    (h0 : 0 ≤ start) (hse : start ≤ end_) (hend : end_ < 9223372036854775807)
    (hreq : net.NewRequestErr url = none)
    (hdo : net.Do (chunkRequest url start end_) = .ok resp)
    (hstatus : resp.StatusCode = 200 ∨ resp.StatusCode = 206) :
    ∃ r, downloadChunk net url start end_ output = some r ∧
      (r.err = none ↔ ((delivered resp.Body).length : Int) ≤ end_ - start + 1 ∧
        readFailure resp.Body = none) ∧
      (r.err = none →
        r.outputSection = some ⟨start, end_ - start + 1, (delivered resp.Body).length⟩ ∧
        r.output = ⟨writeBytes output.data start.toNat (delivered resp.Body), output.pos⟩ ∧
        (r.outputSection = some ⟨start, end_ - start + 1, end_ - start + 1⟩ ↔
          ((delivered resp.Body).length : Int) = end_ - start + 1)) := by
  obtain ⟨c, hc, h1, h2, h3, _⟩ := ioCopy_file start (end_ - start + 1) h0 (by omega)
    resp.Body 0 output 0 (le_refl 0) (by omega)
  rw [downloadChunk_copy net url start end_ output resp h0 hse hend hreq hdo hstatus, hc]
  simp only [sub_zero, zero_add, add_zero] at h1 h2 h3
  refine ⟨_, rfl, ?_, ?_⟩
  · simp only [Option.map_eq_none']
    exact h3
  · simp only [Option.map_eq_none']
    intro he
    have hle := (h3.1 he).1
    have hm : min ((delivered resp.Body).length : Int) (end_ - start + 1) =
        (delivered resp.Body).length := by omega
    rw [h1, h2, hm]
    simp only [Int.toNat_ofNat, List.take_length, Option.some.injEq, SectionWriter.mk.injEq,
      true_and]

/-- Witness of C8 (amended): the interval `[2, 11]` and a body of five bytes. -/
theorem C8_success_means_body_written_witness :
    ∃ r, downloadChunk ⟨fun _ => none, fun _ => .ok ⟨206, "206 Partial Content", ⟨[]⟩,
        [⟨[1, 2, 3], none⟩, ⟨[4, 5], some .EOF⟩]⟩⟩ "u" 2 11 ⟨List.replicate 14 0, 0⟩ = some r ∧
      (r.err = none ↔ ((delivered [⟨[1, 2, 3], none⟩, ⟨[4, 5], some .EOF⟩]).length : Int)
          ≤ 11 - 2 + 1 ∧
        readFailure [⟨[1, 2, 3], none⟩, ⟨[4, 5], some .EOF⟩] = none) ∧
      (r.err = none →
        r.outputSection = some ⟨2, 11 - 2 + 1,
          (delivered [⟨[1, 2, 3], none⟩, ⟨[4, 5], some .EOF⟩]).length⟩ ∧
        r.output = ⟨writeBytes (List.replicate 14 0) (2 : Int).toNat
          (delivered [⟨[1, 2, 3], none⟩, ⟨[4, 5], some .EOF⟩]), 0⟩ ∧
        (r.outputSection = some ⟨2, 11 - 2 + 1, 11 - 2 + 1⟩ ↔
          ((delivered [⟨[1, 2, 3], none⟩, ⟨[4, 5], some .EOF⟩]).length : Int) = 11 - 2 + 1)) :=
  C8_success_means_body_written ⟨fun _ => none, fun _ => .ok ⟨206, "206 Partial Content", ⟨[]⟩,
      [⟨[1, 2, 3], none⟩, ⟨[4, 5], some .EOF⟩]⟩⟩ "u" 2 11 ⟨List.replicate 14 0, 0⟩
    ⟨206, "206 Partial Content", ⟨[]⟩, [⟨[1, 2, 3], none⟩, ⟨[4, 5], some .EOF⟩]⟩
    (by decide) (by decide) (by decide) rfl rfl (Or.inr rfl)

/-- Counterexample to C8 as stated: for the interval `[0, 9]` and a 206 response
whose body ends after five bytes, `downloadChunk` returns success although only
five of the ten bytes were written (the cursor is `5`, the window size `10`). -/
theorem C8_counterexample :
    downloadChunk ⟨fun _ => none, fun _ => .ok ⟨206, "206 Partial Content", ⟨[]⟩,
        [⟨[1, 2, 3, 4, 5], none⟩]⟩⟩ "u" 0 9 ⟨List.replicate 10 0, 0⟩ =
      some ⟨⟨[1, 2, 3, 4, 5, 0, 0, 0, 0, 0], 0⟩, some ⟨0, 10, 5⟩, none⟩ ∧
    (5 : Int) < 9 - 0 + 1 := by
  decide

/-- C10: for every interval `0 ≤ start ≤ end` below `MaxInt64` and every response
with status 200 or 206 whose body delivers more than `end - start + 1` bytes,
`downloadChunk` returns an error (the short-write or the section-exhausted error
of the copy, wrapped), and on return the file holds exactly the first
`end - start + 1` bytes of the body at the offsets `[start, end]`, every byte
outside that range being as before. -/
theorem C10_long_body_is_error (net : Net) (url : String) (start end_ : Int)
    (output : File) (resp : Response)
    (h0 : 0 ≤ start) (hse : start ≤ end_) (hend : end_ < 9223372036854775807)
    (hreq : net.NewRequestErr url = none)
    (hdo : net.Do (chunkRequest url start end_) = .ok resp)
    (hstatus : resp.StatusCode = 200 ∨ resp.StatusCode = 206)
    (hlong : end_ - start + 1 < ((delivered resp.Body).length : Int)) :
    ∃ r, downloadChunk net url start end_ output = some r ∧
      (r.err = some (.saveChunk .shortWrite) ∨ r.err = some (.saveChunk .sectionExhausted)) ∧
      r.outputSection = some ⟨start, end_ - start + 1, end_ - start + 1⟩ ∧
      r.output = ⟨writeBytes output.data start.toNat
        ((delivered resp.Body).take (end_ - start + 1).toNat), output.pos⟩ ∧
      (∀ k : Nat, start ≤ k → (k : Int) ≤ end_ →
        r.output.data[k]? = (delivered resp.Body)[k - start.toNat]? ∧
        (delivered resp.Body)[k - start.toNat]? ≠ none) ∧
      (∀ k : Int, (k < start ∨ end_ < k) → r.output.byteAt k = output.byteAt k) := by
  obtain ⟨c, hc, h1, h2, _, h4⟩ := ioCopy_file start (end_ - start + 1) h0 (by omega)
    resp.Body 0 output 0 (le_refl 0) (by omega)
  rw [downloadChunk_copy net url start end_ output resp h0 hse hend hreq hdo hstatus, hc]
  simp only [sub_zero, zero_add, add_zero] at h1 h2 h4
  have hm : min ((delivered resp.Body).length : Int) (end_ - start + 1) = end_ - start + 1 := by
    omega
  rw [hm] at h1 h2
  have hne : (delivered resp.Body).take (end_ - start + 1).toNat ≠ [] := by
    intro h
    have := congrArg List.length h
    rw [List.length_take] at this
    simp only [List.length_nil] at this
    omega
  have hlen : ((delivered resp.Body).take (end_ - start + 1).toNat).length =
      (end_ - start + 1).toNat := by
    rw [List.length_take]; omega
  refine ⟨_, rfl, ?_, ?_, ?_, ?_, ?_⟩
  · rcases h4 hlong with h | h
    · exact Or.inl (by simp only [h, Option.map_some'])
    · exact Or.inr (by simp only [h, Option.map_some'])
  · simp only [h1]
  · simp only [h2]
  · intro k hk1 hk2
    simp only [h2]
    rw [writeBytes_getElem? _ _ _ hne, if_neg (by omega), if_pos (by rw [hlen]; omega),
      List.getElem?_take_of_lt (by omega)]
    refine ⟨rfl, ?_⟩
    rw [List.getElem?_eq_getElem (by omega)]
    exact Option.some_ne_none _
  · intro k hk
    simp only [h2]
    unfold File.byteAt
    by_cases hk0 : k < 0
    · rw [if_pos hk0, if_pos hk0]
    · rw [if_neg hk0, if_neg hk0]
      simp only
      rw [writeBytes_getD, if_neg (by rw [hlen]; omega)]

/-- Witness of C10: the interval `[2, 5]` and a 200 response with a body of six
bytes. -/
theorem C10_long_body_is_error_witness :
    ∃ r, downloadChunk ⟨fun _ => none, fun _ => .ok ⟨200, "200 OK", ⟨[]⟩,
        [⟨[1, 2, 3], none⟩, ⟨[4, 5, 6], none⟩]⟩⟩ "u" 2 5 ⟨List.replicate 14 0, 0⟩ = some r ∧
      (r.err = some (.saveChunk .shortWrite) ∨ r.err = some (.saveChunk .sectionExhausted)) ∧
      r.outputSection = some ⟨2, 5 - 2 + 1, 5 - 2 + 1⟩ ∧
      r.output = ⟨writeBytes (List.replicate 14 0) (2 : Int).toNat
        ((delivered [⟨[1, 2, 3], none⟩, ⟨[4, 5, 6], none⟩]).take (5 - 2 + 1 : Int).toNat), 0⟩ ∧
      (∀ k : Nat, (2 : Int) ≤ k → (k : Int) ≤ 5 →
        r.output.data[k]? =
          (delivered [⟨[1, 2, 3], none⟩, ⟨[4, 5, 6], none⟩])[k - (2 : Int).toNat]? ∧
        (delivered [⟨[1, 2, 3], none⟩, ⟨[4, 5, 6], none⟩])[k - (2 : Int).toNat]? ≠ none) ∧
      (∀ k : Int, (k < 2 ∨ 5 < k) →
        r.output.byteAt k = File.byteAt ⟨List.replicate 14 0, 0⟩ k) :=
  C10_long_body_is_error ⟨fun _ => none, fun _ => .ok ⟨200, "200 OK", ⟨[]⟩,
      [⟨[1, 2, 3], none⟩, ⟨[4, 5, 6], none⟩]⟩⟩ "u" 2 5 ⟨List.replicate 14 0, 0⟩
    ⟨200, "200 OK", ⟨[]⟩, [⟨[1, 2, 3], none⟩, ⟨[4, 5, 6], none⟩]⟩
    (by decide) (by decide) (by decide) rfl rfl (Or.inl rfl) (by decide)

/-! ## The branch of `main` on `Accept-Ranges` -/

/-- C9: `main` finds range support and takes the ranged path, dispatching the
intervals of the partition loop, exactly when `Header.Get("Accept-Ranges")` of the
HEAD response is the string `bytes`; otherwise (header absent, or `none`, `Bytes`,
`bytes ` with a trailing blank) it takes the single whole-resource path and no
partition is made. -/
theorem C9_accept_ranges (resp : Response) :
    (acceptsRanges resp = true ↔ resp.Header.Get "Accept-Ranges" = "bytes") ∧
    ((∃ l, mainFetch 631207581 8 resp = some (Fetch.ranged l)) ↔
      resp.Header.Get "Accept-Ranges" = "bytes") ∧
    (mainFetch 631207581 8 resp = some Fetch.whole ↔
      resp.Header.Get "Accept-Ranges" ≠ "bytes") ∧
    (∀ expectedSize numChunks : Int, resp.Header.Get "Accept-Ranges" = "bytes" →
      mainFetch expectedSize numChunks resp =
        (mainChunks expectedSize numChunks).map Fetch.ranged) ∧
    (∀ expectedSize numChunks : Int, resp.Header.Get "Accept-Ranges" ≠ "bytes" →
      mainFetch expectedSize numChunks resp = some Fetch.whole) ∧
    (∀ status body, mainFetch 631207581 8 ⟨200, status, ⟨[]⟩, body⟩ = some Fetch.whole) ∧
    (∀ status body v, v = "none" ∨ v = "Bytes" ∨ v = "bytes " →
      mainFetch 631207581 8 ⟨200, status, ⟨[("Accept-Ranges", [v])]⟩, body⟩ =
        some Fetch.whole) := by
  have hacc : acceptsRanges resp = true ↔ resp.Header.Get "Accept-Ranges" = "bytes" := by
    unfold acceptsRanges; exact beq_iff_eq
  have hchunks : ∃ l, mainChunks 631207581 8 = some l := ⟨_, rfl⟩
  refine ⟨hacc, ?_, ?_, ?_, ?_, ?_, ?_⟩
  · constructor
    · rintro ⟨l, hl⟩
      by_contra hne
      unfold mainFetch at hl
      rw [if_neg (fun h => hne (hacc.1 h))] at hl
      cases hl
    · intro h
      obtain ⟨l, hl⟩ := hchunks
      exact ⟨l, by unfold mainFetch; rw [if_pos (hacc.2 h), hl]; rfl⟩
  · constructor
    · intro hw h
      obtain ⟨l, hl⟩ := hchunks
      unfold mainFetch at hw
      rw [if_pos (hacc.2 h), hl] at hw
      cases hw
    · intro hne
      unfold mainFetch
      rw [if_neg (fun h => hne (hacc.1 h))]
  · intro T n h
    unfold mainFetch
    rw [if_pos (hacc.2 h)]
  · intro T n hne
    unfold mainFetch
    rw [if_neg (fun h => hne (hacc.1 h))]
  · intro status body
    rfl
  · intro status body v hv
    rcases hv with h | h | h <;> subst h <;> rfl

/-- Witness of C9: a HEAD response with `Accept-Ranges: bytes`, and one with
`Accept-Ranges: none`. -/
theorem C9_accept_ranges_witness :
    mainFetch 100 8 ⟨200, "200 OK", ⟨[("Accept-Ranges", ["bytes"])]⟩, []⟩ =
      (mainChunks 100 8).map Fetch.ranged ∧
    mainFetch 100 8 ⟨200, "200 OK", ⟨[("Accept-Ranges", ["none"])]⟩, []⟩ = some Fetch.whole :=
  ⟨(C9_accept_ranges ⟨200, "200 OK", ⟨[("Accept-Ranges", ["bytes"])]⟩, []⟩).2.2.2.1 100 8
      (by decide),
    (C9_accept_ranges ⟨200, "200 OK", ⟨[("Accept-Ranges", ["none"])]⟩, []⟩).2.2.2.2.1 100 8
      (by decide)⟩


/-! ## Several sections over one file -/

theorem baseOf_succ (sizes : List Nat) (i n : Nat) (h : sizes[i]? = some n) :
    baseOf sizes (i + 1) = baseOf sizes i + n := by
  unfold baseOf
  rw [List.take_succ, List.sum_append, h]
  simp

theorem baseOf_le_succ (sizes : List Nat) (i : Nat) : baseOf sizes i ≤ baseOf sizes (i + 1) := by
  unfold baseOf
  rw [List.take_succ, List.sum_append]
  exact Nat.le_add_right _ _

theorem baseOf_mono (sizes : List Nat) {i j : Nat} (h : i ≤ j) :
    baseOf sizes i ≤ baseOf sizes j := by
  induction j, h using Nat.le_induction with
  | base => exact le_refl _
  | succ j _ ih => exact le_trans ih (baseOf_le_succ sizes j)

theorem baseOf_le_sum (sizes : List Nat) (i : Nat) : baseOf sizes i ≤ sizes.sum := by
  have := List.sum_take_add_sum_drop sizes i
  unfold baseOf
  omega

theorem baseOf_apart (sizes : List Nat) {i j n : Nat} (h : sizes[i]? = some n) (hij : i < j) :
    baseOf sizes i + n ≤ baseOf sizes j := by
  rw [← baseOf_succ sizes i n h]
  exact baseOf_mono sizes hij

theorem baseOf_end_le (sizes : List Nat) {i n : Nat} (h : sizes[i]? = some n) :
    baseOf sizes i + n ≤ sizes.sum := by
  rw [← baseOf_succ sizes i n h]
  exact baseOf_le_sum _ _

theorem tiling_getElem? (sizes : List Nat) : ∀ (b i : Nat),
    (tiling (b : Int) sizes)[i]? =
      (sizes[i]?).map fun n => ⟨((b + baseOf sizes i : Nat) : Int), (n : Int), 0⟩ := by
  induction sizes with
  | nil => intro b i; simp [tiling]
  | cons n rest ih =>
    intro b i
    cases i with
    | zero => simp [tiling, baseOf]
    | succ i =>
      have h := ih (b + n) i
      push_cast at h
      simp only [tiling, List.getElem?_cons_succ, h]
      cases rest[i]? with
      | none => rfl
      | some m =>
        simp only [Option.map_some', baseOf, List.take_succ_cons, List.sum_cons]
        push_cast
        congr 2
        ring

theorem tiling_length (sizes : List Nat) : ∀ b : Int, (tiling b sizes).length = sizes.length := by
  induction sizes with
  | nil => intro b; rfl
  | cons n rest ih => intro b; simp [tiling, ih]

theorem fedTo_cons_self (i : Nat) (p : List Byte) (rest : List (Nat × List Byte)) :
    fedTo i ((i, p) :: rest) = p ++ fedTo i rest := by
  simp [fedTo, List.filter_cons]

theorem fedTo_cons_ne {i j : Nat} (h : j ≠ i) (p : List Byte) (rest : List (Nat × List Byte)) :
    fedTo i ((j, p) :: rest) = fedTo i rest := by
  simp [fedTo, List.filter_cons, h]

theorem writeBytes_getElem?_of_le (d : List Byte) (o : Nat) (p : List Byte)
    (h : o + p.length ≤ d.length) (k : Nat) :
    (writeBytes d o p)[k]? = if o ≤ k ∧ k < o + p.length then p[k - o]? else d[k]? := by
  by_cases hp : p = []
  · rw [hp, writeBytes_nil, if_neg (by simp)]
  rw [writeBytes_getElem? d o p hp]
  split_ifs <;> first | rfl | omega

/-- A list that agrees with every pattern on its window is their concatenation. -/
theorem eq_flatten_of_tiles (patterns : List (List Byte)) : ∀ d : List Byte,
    d.length = patterns.flatten.length →
    (∀ i pat, patterns[i]? = some pat → ∀ k, k < pat.length →
      d[baseOf (patterns.map List.length) i + k]? = pat[k]?) →
    d = patterns.flatten := by
  induction patterns with
  | nil =>
    intro d hlen _
    exact List.length_eq_zero.1 (by simpa using hlen)
  | cons p ps ih =>
    intro d hlen h
    rw [List.flatten_cons] at hlen ⊢
    rw [List.length_append] at hlen
    have h1 : d.take p.length = p := by
      apply List.ext_getElem?
      intro k
      rw [List.getElem?_take]
      by_cases hk : k < p.length
      · rw [if_pos hk]
        have := h 0 p (by simp) k hk
        simpa [baseOf] using this
      · rw [if_neg hk, List.getElem?_eq_none (by omega)]
    have h2 : d.drop p.length = ps.flatten := by
      apply ih
      · rw [List.length_drop]; omega
      · intro i pat hi k hk
        rw [List.getElem?_drop]
        have := h (i + 1) pat (by simpa using hi) k hk
        simp only [List.map_cons, baseOf, List.take_succ_cons, List.sum_cons] at this
        simp only [baseOf]
        rw [← this]
        congr 1
        omega
    rw [← List.take_append_drop p.length d, h1, h2]


theorem pattern_size {patterns : List (List Byte)} {i : Nat} {pat : List Byte}
    (h : patterns[i]? = some pat) : (patterns.map List.length)[i]? = some pat.length := by
  rw [List.getElem?_map, h]; rfl

/-- One scheduled `Write` keeps the invariant of sections sharing a file. -/
theorem stepView_inv (patterns : List (List Byte))
    (hmax : (patterns.flatten.length : Int) ≤ 9223372036854775807)
    (vs : List SectionWriter) (f : File) (j : Nat) (p : List Byte)
    (rest : List (Nat × List Byte)) (hinv : ViewsInv patterns vs f.data ((j, p) :: rest)) :
    ∃ vs' f', stepView vs f j p = some (vs', f') ∧ f'.pos = f.pos ∧
      ViewsInv patterns vs' f'.data rest := by
  obtain ⟨hlen, hvl, hall⟩ := hinv
  have htot : patterns.flatten.length = (patterns.map List.length).sum := List.length_flatten _
  unfold stepView
  cases hj : vs[j]? with
  | none =>
    have hjN : vs.length ≤ j := List.getElem?_eq_none_iff.1 hj
    refine ⟨vs, f, rfl, rfl, hlen, hvl, ?_⟩
    intro i pat hi
    have hiN : i < patterns.length := (List.getElem?_eq_some.1 hi).1
    obtain ⟨o, h1, h2, h3, h4⟩ := hall i pat hi
    rw [fedTo_cons_ne (by omega)] at h3
    exact ⟨o, h1, h2, h3, h4⟩
  | some s =>
    have hjN : j < vs.length := (List.getElem?_eq_some.1 hj).1
    obtain ⟨patj, hpj⟩ : ∃ patj, patterns[j]? = some patj :=
      ⟨_, List.getElem?_eq_getElem (by omega)⟩
    obtain ⟨o, h1, h2, h3, h4⟩ := hall j patj hpj
    rw [hj] at h1
    have hs := Option.some.inj h1
    subst hs
    rw [fedTo_cons_self] at h3
    have hpl : o + p.length ≤ patj.length := by
      have := congrArg List.length h3
      rw [List.length_drop, List.length_append] at this
      omega
    have hend := baseOf_end_le _ (pattern_size hpj)
    by_cases hfull : o = patj.length
    · have hw := write_exhausted osFile _ f p
        (by simp only; omega : (⟨(baseOf (patterns.map List.length) j : Nat),
          (patj.length : Nat), (o : Nat)⟩ : SectionWriter).Off ≥
          (⟨(baseOf (patterns.map List.length) j : Nat),
          (patj.length : Nat), (o : Nat)⟩ : SectionWriter).Size)
      simp only [hw]
      refine ⟨_, _, rfl, rfl, hlen, by rw [List.length_set]; exact hvl, ?_⟩
      intro i pat hi
      by_cases hij : j = i
      · subst hij
        rw [hpj] at hi
        have hpe := Option.some.inj hi
        subst hpe
        refine ⟨o, ?_, h2, ?_, h4⟩
        · rw [List.getElem?_set, if_pos rfl, if_pos hjN]
        · have hp0 : p = [] := List.length_eq_zero.1 (by omega)
          rw [hp0, List.nil_append] at h3
          exact h3
      · obtain ⟨o', g1, g2, g3, g4⟩ := hall i pat hi
        rw [fedTo_cons_ne hij] at g3
        exact ⟨o', by rw [List.getElem?_set, if_neg hij]; exact g1, g2, g3, g4⟩
    · have hw := write_file (baseOf (patterns.map List.length) j : Nat)
        (patj.length : Nat) (o : Nat) f p (by omega) (by omega) (by omega) (by omega)
      have hm : min (p.length : Int) ((patj.length : Nat) - (o : Nat)) = p.length := by
        omega
      have ht : ((baseOf (patterns.map List.length) j : Nat) + (o : Nat) : Int).toNat =
          baseOf (patterns.map List.length) j + o := by omega
      rw [hm, ht, Int.toNat_ofNat, List.take_length] at hw
      simp only [hw]
      have hfit : baseOf (patterns.map List.length) j + o + p.length ≤ f.data.length := by omega
      refine ⟨_, _, rfl, rfl, ?_, by rw [List.length_set]; exact hvl, ?_⟩
      · rw [writeBytes_length_of_le _ _ _ hfit]
        exact hlen
      · intro i pat hi
        by_cases hij : j = i
        · subst hij
          rw [hpj] at hi
          have hpe := Option.some.inj hi
          subst hpe
          refine ⟨o + p.length, ?_, hpl, ?_, ?_⟩
          · rw [List.getElem?_set, if_pos rfl, if_pos hjN]
            push_cast
            rfl
          · rw [← List.drop_drop, h3, List.drop_left' rfl]
          · intro k hk
            rw [writeBytes_getElem?_of_le _ _ _ hfit]
            by_cases hko : k < o
            · rw [if_neg (by omega)]
              exact h4 k hko
            · rw [if_pos (by omega)]
              have e0 : k = o + (k - o) := by omega
              have e1 : patj[k]? = (patj.drop o)[k - o]? := by
                rw [List.getElem?_drop, ← e0]
              have e2 : baseOf (patterns.map List.length) j + k -
                  (baseOf (patterns.map List.length) j + o) = k - o := by omega
              rw [e1, h3, List.getElem?_append_left (by omega), e2]
        · obtain ⟨o', g1, g2, g3, g4⟩ := hall i pat hi
          rw [fedTo_cons_ne hij] at g3
          refine ⟨o', by rw [List.getElem?_set, if_neg hij]; exact g1, g2, g3, ?_⟩
          intro k hk
          rw [writeBytes_getElem?_of_le _ _ _ hfit, if_neg]
          · exact g4 k hk
          · rcases Nat.lt_or_gt_of_ne hij with hlt | hgt
            · have := baseOf_apart _ (pattern_size hpj) hlt
              omega
            · have := baseOf_apart _ (pattern_size hi) hgt
              omega

theorem runSchedule_inv (patterns : List (List Byte))
    (hmax : (patterns.flatten.length : Int) ≤ 9223372036854775807)
    (sched : List (Nat × List Byte)) : ∀ (vs : List SectionWriter) (f : File),
    ViewsInv patterns vs f.data sched →
    ∃ vs' f', runSchedule vs f sched = some (vs', f') ∧ f'.pos = f.pos ∧
      ViewsInv patterns vs' f'.data [] := by
  induction sched with
  | nil => intro vs f h; exact ⟨vs, f, rfl, rfl, h⟩
  | cons c rest ih =>
    intro vs f h
    obtain ⟨j, p⟩ := c
    obtain ⟨vs1, f1, h1, h2, h3⟩ := stepView_inv patterns hmax vs f j p rest h
    obtain ⟨vs2, f2, g1, g2, g3⟩ := ih vs1 f1 h3
    refine ⟨vs2, f2, ?_, by rw [g2, h2], g3⟩
    simp only [runSchedule, h1, g1]

/-- C6: sections with side-by-side windows that tile one pre-sized file, each
fed its own pattern of exactly its window length in any number of `Write` calls:
every interleaving of the calls that keeps the order of each section's own calls
ends with the same file contents, the concatenation of the patterns in offset
order, and with every section full. -/
theorem C6_disjoint_views (patterns : List (List Byte)) (sched : List (Nat × List Byte))
    (f : File) (hsize : f.data.length = patterns.flatten.length)
    (hmax : (patterns.flatten.length : Int) ≤ 9223372036854775807)
    (hfed : ∀ i pat, patterns[i]? = some pat → fedTo i sched = pat) :
    ∃ views, runSchedule (tiling 0 (patterns.map List.length)) f sched =
        some (views, ⟨patterns.flatten, f.pos⟩) ∧
      views.length = patterns.length ∧ ∀ v ∈ views, v.Off = v.Size := by
  have hinit : ViewsInv patterns (tiling 0 (patterns.map List.length)) f.data sched := by
    refine ⟨hsize, by rw [tiling_length, List.length_map], ?_⟩
    intro i pat hi
    refine ⟨0, ?_, Nat.zero_le _, by rw [List.drop_zero, hfed i pat hi], fun k hk => by omega⟩
    have := tiling_getElem? (patterns.map List.length) 0 i
    rw [pattern_size hi] at this
    simpa using this
  obtain ⟨vs, f', h1, h2, h3, h4, h5⟩ := runSchedule_inv patterns hmax sched _ f hinit
  have hfull : ∀ i pat, patterns[i]? = some pat →
      vs[i]? = some ⟨(baseOf (patterns.map List.length) i : Nat), (pat.length : Nat),
        (pat.length : Nat)⟩ ∧
      ∀ k, k < pat.length → f'.data[baseOf (patterns.map List.length) i + k]? = pat[k]? := by
    intro i pat hi
    obtain ⟨o, g1, g2, g3, g4⟩ := h5 i pat hi
    have ho : o = pat.length := by
      have := congrArg List.length g3
      simp only [fedTo, List.filter_nil, List.map_nil, List.flatten_nil, List.length_nil,
        List.length_drop] at this
      omega
    subst ho
    exact ⟨g1, g4⟩
  have hdata : f'.data = patterns.flatten :=
    eq_flatten_of_tiles patterns f'.data h3 fun i pat hi => (hfull i pat hi).2
  refine ⟨vs, ?_, h4, ?_⟩
  · rw [h1]
    congr 2
    cases f' with
    | mk d q => simp only at hdata h2; rw [hdata, h2]
  · intro v hv
    obtain ⟨i, hi⟩ := List.getElem?_of_mem hv
    have hiN : i < vs.length := (List.getElem?_eq_some.1 hi).1
    obtain ⟨pat, hpi⟩ : ∃ pat, patterns[i]? = some pat :=
      ⟨_, List.getElem?_eq_getElem (by omega)⟩
    have := (hfull i pat hpi).1
    rw [hi] at this
    rw [Option.some.inj this]

/-- Witness of C6: the patterns `[1,2]` and `[3,4,5]` written through two sections
in an interleaved order. -/
theorem C6_disjoint_views_witness :
    ∃ views, runSchedule (tiling 0 ([[1, 2], [3, 4, 5]].map List.length))
        ⟨List.replicate 5 0, 0⟩ [(1, [3, 4]), (0, [1]), (1, [5]), (0, [2])] =
        some (views, ⟨[[1, 2], [3, 4, 5]].flatten, 0⟩) ∧
      views.length = [[(1 : Byte), 2], [3, 4, 5]].length ∧ ∀ v ∈ views, v.Off = v.Size :=
  C6_disjoint_views [[1, 2], [3, 4, 5]] [(1, [3, 4]), (0, [1]), (1, [5]), (0, [2])]
    ⟨List.replicate 5 0, 0⟩ (by decide) (by decide)
    (by
      intro i pat h
      match i, h with
      | 0, h => cases h; decide
      | 1, h => cases h; decide
      | (n + 2), h => simp at h)

end Downloader
